import Mathlib

/-!
Verification of the course-graph-network graph engine.

Shallow embedding of the graph assembly / query engine
(`src/graph/graphBuilder.js`, class `CourseGraph`) and of the eligibility
evaluator (the `POST /api/suggest-courses` handler of the server variant
that supports `orGroups`).

Modelling conventions:
* JS strings are `String`, JS arrays are `List`.
* The JS `Map` held in `this.nodes` is an insertion-ordered association
  list `List (String × Node)`; `addCourse` only inserts codes that are
  absent, so the list stays key-unique and in insertion order, exactly
  like the `Map`.
* The JS `Set` of completed courses is the list of its elements
  (only membership is consulted).
* A JS record field that may be `undefined` (`prerequisites` /
  `corequisites` of a scraped course record) is an `Option`;
  `course.prerequisites.forEach` on `undefined` throws a `TypeError`,
  embedded as `Except.error`.
* `String.prototype.toUpperCase` on the ASCII course codes is
  `jsToUpper` (ASCII-range uppercasing, written over the char list so
  that the kernel can evaluate it).
* `a.code.localeCompare(b.code)` ordering on course codes is modelled as
  code-point lexicographic order `strLe`; on the catalog's code alphabet
  (upper-case letters, digits, spaces) the two orders agree.
* `Array.prototype.sort(cmp)` is a stable comparator sort; it is
  modelled with `List.insertionSort` (stable, and evaluable by `decide`).
* The `while` loop of `getSubgraph` is embedded as the fuel-indexed
  `bfsLoop`; `getSubgraph` passes `bfsFuel`, an upper bound on the
  number of loop iterations, so the fuel never runs out (proved below).
-/

/-- ASCII uppercasing of one character, as `toUpperCase` acts on the
course-code alphabet. -/
def jsCharUpper (c : Char) : Char :=
  if 'a' ≤ c ∧ c ≤ 'z' then Char.ofNat (c.toNat - 32) else c

/-- `String.prototype.toUpperCase`, restricted to ASCII. -/
def jsToUpper (s : String) : String := ⟨s.data.map jsCharUpper⟩

/-- Code-point lexicographic order on char lists (the order
`localeCompare` induces on the catalog's course codes). -/
def charListLe : List Char → List Char → Bool
  | [], _ => true
  | _ :: _, [] => false
  | a :: as, b :: bs =>
    if a = b then charListLe as bs
    else decide (a < b)

/-- Lexicographic string order used for the by-code sorts. -/
def strLe (a b : String) : Bool := charListLe a.data b.data

/-- A vis-network node as built by `addCourse`. -/
structure Node where
  id : String
  label : String
  name : String
  department : String
  description : String
  url : String
deriving DecidableEq

/-- An edge record as pushed by `addPrerequisiteEdge` /
`addCorequisiteEdge`; `type` is the raw JS string tag. -/
structure Edge where
  «from» : String
  «to» : String
  type : String
  label : String
deriving DecidableEq

/-- A scraped course record. `prerequisites` / `corequisites` are
`Option` because a malformed record may lack those array fields. -/
structure CourseRecord where
  code : String
  name : String
  department : String
  description : String
  url : String
  prerequisites : Option (List String)
  corequisites : Option (List String)
deriving DecidableEq

/-- The `CourseGraph` state: the insertion-ordered node map and the edge
array. -/
structure CourseGraph where
  nodes : List (String × Node)
  edges : List Edge
deriving DecidableEq

/-- `new CourseGraph()`. -/
def newCourseGraph : CourseGraph := { nodes := [], edges := [] }

/-- `this.nodes.has(k)`. -/
def mapHas (m : List (String × Node)) (k : String) : Bool :=
  m.any (fun p => p.1 == k)

/-- `this.nodes.get(k)`; `none` is JS `undefined`. -/
def mapGet (m : List (String × Node)) (k : String) : Option Node :=
  (m.find? (fun p => p.1 == k)).map (fun p => p.2)

/-- `addCourse(course)`. -/
def addCourse (g : CourseGraph) (course : CourseRecord) : CourseGraph :=
  if mapHas g.nodes course.code then g
  else
    { g with
      nodes := g.nodes ++
        [(course.code,
          { id := course.code
            label := course.code
            name := course.name
            department := course.department
            description := course.description
            url := course.url })] }

/-- `addPrerequisiteEdge(fromCourse, toCourse)`. -/
def addPrerequisiteEdge (g : CourseGraph) (fromCourse toCourse : String) :
    CourseGraph :=
  { g with
    edges := g.edges ++
      [{ «from» := fromCourse
         «to» := toCourse
         type := "prerequisite"
         label := "prerequisite" }] }

/-- `addCorequisiteEdge(fromCourse, toCourse)`. -/
def addCorequisiteEdge (g : CourseGraph) (fromCourse toCourse : String) :
    CourseGraph :=
  { g with
    edges := g.edges ++
      [{ «from» := fromCourse
         «to» := toCourse
         type := "corequisite"
         label := "corequisite" }] }

/-- Second pass of `buildFromCourses` for one record: the two `forEach`
loops over `course.prerequisites` and `course.corequisites`; a missing
array field makes the `forEach` access throw a `TypeError`. -/
def addEdgesOfCourse (g : CourseGraph) (course : CourseRecord) :
    Except String CourseGraph :=
  match course.prerequisites with
  | none => Except.error "TypeError: course.prerequisites is undefined"
  | some prereqs =>
    let g2 := prereqs.foldl (fun h prereq => addPrerequisiteEdge h prereq course.code) g
    match course.corequisites with
    | none => Except.error "TypeError: course.corequisites is undefined"
    | some coreqs =>
      Except.ok (coreqs.foldl (fun h coreq => addCorequisiteEdge h coreq course.code) g2)

/-- `buildFromCourses(courses)`: first pass adds every course as a node,
second pass adds every prerequisite / corequisite edge. -/
def buildFromCourses (g : CourseGraph) (courses : List CourseRecord) :
    Except String CourseGraph :=
  let g1 := courses.foldl addCourse g
  courses.foldlM addEdgesOfCourse g1

/-- The `{nodes, edges}` payload of `getGraphData` and `getSubgraph`. -/
structure GraphData where
  nodes : List Node
  edges : List Edge
deriving DecidableEq

/-- `getGraphData()`. -/
def getGraphData (g : CourseGraph) : GraphData :=
  { nodes := g.nodes.map (fun p => p.2), edges := g.edges }

/-- `getNodesByDepartment(department)`. -/
def getNodesByDepartment (g : CourseGraph) (department : String) : List Node :=
  (g.nodes.map (fun p => p.2)).filter (fun n => n.department == department)

/-- `getPrerequisitesFor(courseCode)`: the `.map` resolves each edge's
`from` code in the node map and keeps the result even when the lookup is
`undefined` (`none`). -/
def getPrerequisitesFor (g : CourseGraph) (courseCode : String) :
    List (Option Node) :=
  (g.edges.filter (fun edge => edge.«to» == courseCode && edge.type == "prerequisite")).map
    (fun edge => mapGet g.nodes edge.«from»)

/-- `getDependentsFor(courseCode)`. -/
def getDependentsFor (g : CourseGraph) (courseCode : String) :
    List (Option Node) :=
  (g.edges.filter (fun edge => edge.«from» == courseCode && edge.type == "prerequisite")).map
    (fun edge => mapGet g.nodes edge.«to»)

/-- A `{code, level}` entry of the BFS queue in `getSubgraph`. -/
structure QItem where
  code : String
  level : Nat
deriving DecidableEq

/-- `this.edges.filter(edge => edge.from === code || edge.to === code)`. -/
def connectedEdges (edges : List Edge) (code : String) : List Edge :=
  edges.filter (fun edge => edge.«from» == code || edge.«to» == code)

/-- `edge.from === code ? edge.to : edge.from`. -/
def nextCode (edge : Edge) (code : String) : String :=
  if edge.«from» == code then edge.«to» else edge.«from»

/-- The `while (queue.length > 0)` loop of `getSubgraph`, fuel-indexed.
`depth` is an `Int` because the HTTP layer can pass a negative parsed
depth. -/
def bfsLoop (edges : List Edge) (depth : Int) :
    Nat → List String → List QItem → List String
  | _, visited, [] => visited
  | 0, visited, _ :: _ => visited
  | fuel + 1, visited, item :: queue =>
    if visited.contains item.code || (item.level : Int) > depth then
      bfsLoop edges depth fuel visited queue
    else
      let visited' := visited ++ [item.code]
      let newItems := (connectedEdges edges item.code).filterMap
        (fun edge =>
          let nc := nextCode edge item.code
          if visited'.contains nc then none else some ⟨nc, item.level + 1⟩)
      bfsLoop edges depth fuel visited' (queue ++ newItems)

/-- Every code the BFS can ever see: the seed codes and every edge
endpoint. -/
def bfsUniverse (edges : List Edge) (courseCodes : List String) : List String :=
  courseCodes ++ edges.map (fun e => e.«from») ++ edges.map (fun e => e.«to»)

/-- Fuel that dominates the iteration count of the `while` loop (proved
sufficient below). -/
def bfsFuel (edges : List Edge) (courseCodes : List String) : Nat :=
  courseCodes.length + (1 + edges.length) * (bfsUniverse edges courseCodes).length + 1

/-- The `visited` set of `getSubgraph(courseCodes, depth)`, in insertion
order. -/
def subgraphVisited (g : CourseGraph) (courseCodes : List String) (depth : Int) :
    List String :=
  bfsLoop g.edges depth (bfsFuel g.edges courseCodes) []
    (courseCodes.map (fun code => ⟨code, 0⟩))

/-- `getSubgraph(courseCodes, depth)`. -/
def getSubgraph (g : CourseGraph) (courseCodes : List String) (depth : Int) :
    GraphData :=
  let visited := subgraphVisited g courseCodes depth
  { nodes := visited.filterMap (fun code => mapGet g.nodes code)
    edges := g.edges.filter
      (fun edge => visited.contains edge.«from» && visited.contains edge.«to») }

/-- The `getStats()` payload. -/
structure Stats where
  totalCourses : Nat
  totalEdges : Nat
  prerequisiteEdges : Nat
  corequisiteEdges : Nat
  departments : Nat
deriving DecidableEq

/-- `getStats()`. -/
def getStats (g : CourseGraph) : Stats :=
  { totalCourses := g.nodes.length
    totalEdges := g.edges.length
    prerequisiteEdges := (g.edges.filter (fun e => e.type == "prerequisite")).length
    corequisiteEdges := (g.edges.filter (fun e => e.type == "corequisite")).length
    departments := ((g.nodes.map (fun p => p.2.department)).eraseDups).length }

/-- One entry of a `suggest-courses` response tier. -/
structure Suggestion where
  code : String
  name : String
  department : String
  prerequisites : List String
  corequisites : List String
  missingPrereqs : List String
  missingCoreqs : List String
deriving DecidableEq

/-- The three readiness tiers of the `suggest-courses` response. -/
structure Suggestions where
  canTake : List Suggestion
  partialPrereqs : List Suggestion
  noPrereqs : List Suggestion
deriving DecidableEq

/-- `new Set(completedCourses.map(c => c.toUpperCase()))` (as a list;
only membership is consulted). -/
def mkCompletedSet (completedCourses : List String) : List String :=
  completedCourses.map jsToUpper

/-- The `isPrereqSatisfied` helper of the `suggest-courses` handler:
OR-group membership when `orGroups` is given, otherwise membership in
the uppercased completed set. -/
def isPrereqSatisfied (orGroups : Option (List (List String)))
    (completedSet : List String) (prereq : String) : Bool :=
  match orGroups with
  | some groups => groups.any (fun group => group.contains prereq)
  | none => completedSet.contains prereq

/-- The `isAlreadyCompleted` check applied to a candidate course's own
code before it is classified. -/
def isAlreadyCompleted (orGroups : Option (List (List String)))
    (completedSet : List String) (course : CourseRecord) : Bool :=
  match orGroups with
  | some groups => groups.any (fun group => group.contains course.code)
  | none => completedSet.contains course.code

/-- Comparator of the final `sort((a, b) => a.code.localeCompare(b.code))`. -/
def sugLe (a b : Suggestion) : Prop := strLe a.code b.code = true

instance : DecidableRel sugLe := fun a b => by
  unfold sugLe
  infer_instance

/-- The `coursesData.forEach` body of the `suggest-courses` handler:
classify one course into a tier (or none). -/
def suggestStep (orGroups : Option (List (List String)))
    (completedSet : List String) (suggestions : Suggestions)
    (course : CourseRecord) : Suggestions :=
  if isAlreadyCompleted orGroups completedSet course then suggestions
  else
    let prereqs := course.prerequisites.getD []
    let coreqs := course.corequisites.getD []
    if prereqs.length == 0 && coreqs.length == 0 then
      { suggestions with
        noPrereqs := suggestions.noPrereqs ++
          [{ code := course.code, name := course.name
             department := course.department
             prerequisites := [], corequisites := []
             missingPrereqs := [], missingCoreqs := [] }] }
    else
      let missingPrereqs := prereqs.filter (fun p => !isPrereqSatisfied orGroups completedSet p)
      let missingCoreqs := coreqs.filter (fun c => !isPrereqSatisfied orGroups completedSet c)
      let completedPrereqs := prereqs.filter (fun p => isPrereqSatisfied orGroups completedSet p)
      let completedCoreqs := coreqs.filter (fun c => isPrereqSatisfied orGroups completedSet c)
      if missingPrereqs.length == 0 && missingCoreqs.length == 0 then
        { suggestions with
          canTake := suggestions.canTake ++
            [{ code := course.code, name := course.name
               department := course.department
               prerequisites := prereqs, corequisites := coreqs
               missingPrereqs := [], missingCoreqs := [] }] }
      else if completedPrereqs.length > 0 || completedCoreqs.length > 0 then
        { suggestions with
          partialPrereqs := suggestions.partialPrereqs ++
            [{ code := course.code, name := course.name
               department := course.department
               prerequisites := prereqs, corequisites := coreqs
               missingPrereqs := missingPrereqs, missingCoreqs := missingCoreqs }] }
      else suggestions

/-- The `POST /api/suggest-courses` handler body (the server variant
with `orGroups` support): classify every course, then sort each tier by
code. -/
def suggestCourses (coursesData : List CourseRecord)
    (completedCourses : List String)
    (orGroups : Option (List (List String))) : Suggestions :=
  let completedSet := mkCompletedSet completedCourses
  let s := coursesData.foldl (suggestStep orGroups completedSet)
    { canTake := [], partialPrereqs := [], noPrereqs := [] }
  { canTake := List.insertionSort sugLe s.canTake
    partialPrereqs := List.insertionSort sugLe s.partialPrereqs
    noPrereqs := List.insertionSort sugLe s.noPrereqs }

/-! ### Order lemmas for the by-code sort -/

theorem charListLe_total (a b : List Char) :
    charListLe a b = true ∨ charListLe b a = true := by
  induction a generalizing b with
  | nil => left; rfl
  | cons x xs ih =>
    cases b with
    | nil => right; rfl
    | cons y ys =>
      by_cases hxy : x = y
      · subst hxy
        rcases ih ys with h | h
        · left; simp [charListLe, h]
        · right; simp [charListLe, h]
      · rcases lt_trichotomy x y with h | h | h
        · left; simp [charListLe, hxy, h]
        · exact absurd h hxy
        · right; simp [charListLe, Ne.symm hxy, h, not_lt_of_gt h]

theorem charListLe_trans (a b c : List Char) (hab : charListLe a b = true)
    (hbc : charListLe b c = true) : charListLe a c = true := by
  induction a generalizing b c with
  | nil => rfl
  | cons x xs ih =>
    cases b with
    | nil => simp [charListLe] at hab
    | cons y ys =>
      cases c with
      | nil => simp [charListLe] at hbc
      | cons z zs =>
        simp only [charListLe] at hab hbc ⊢
        by_cases hxy : x = y <;> by_cases hyz : y = z
        · subst hxy; subst hyz
          simp_all
          exact ih ys zs hab hbc
        · subst hxy
          simp_all
        · subst hyz
          simp_all
        · simp only [hxy, hyz, if_neg] at hab hbc
          have hx : x < y := by simpa using hab
          have hy : y < z := by simpa using hbc
          have hxz : x < z := lt_trans hx hy
          simp [show x ≠ z from ne_of_lt hxz, hxz]

instance : IsTotal Suggestion sugLe :=
  ⟨fun a b => by
    unfold sugLe strLe
    exact charListLe_total a.code.data b.code.data⟩

instance : IsTrans Suggestion sugLe :=
  ⟨fun a b c hab hbc => charListLe_trans a.code.data b.code.data c.code.data hab hbc⟩

/-! ### Node-map lookup lemmas -/

theorem mapGet_eq_none_iff (m : List (String × Node)) (k : String) :
    mapGet m k = none ↔ mapHas m k = false := by
  simp [mapGet, mapHas, List.find?_eq_none, List.any_eq_true]

/-! ### C1: dangling endpoints in getPrerequisitesFor / getDependentsFor -/

/-- The record of the spec's dangling-tolerance example: `CS 999` lists
the never-scraped `XX 000` as its only prerequisite. -/
def recC1 : CourseRecord :=
  { code := "CS 999", name := "Special Topics", department := "CS"
    description := "", url := ""
    prerequisites := some ["XX 000"], corequisites := some [] }

/-- The graph `buildFromCourses` produces from `[recC1]`. -/
def gC1 : CourseGraph :=
  { nodes := [("CS 999",
      { id := "CS 999", label := "CS 999", name := "Special Topics"
        department := "CS", description := "", url := "" })]
    edges := [{ «from» := "XX 000", «to» := "CS 999"
                type := "prerequisite", label := "prerequisite" }] }

/-- A graph with a prerequisite edge `A → B` and no nodes at all, so the
edge's `to` endpoint is dangling for `getDependentsFor`. -/
def gC1dep : CourseGraph := addPrerequisiteEdge newCourseGraph "A" "B"

/-- C1, counterexample: on the spec's own example the lookup is NOT an
empty sequence — the dangling edge is kept and resolves to the
`undefined` placeholder `none`. -/
theorem c1_counterexample :
    (buildFromCourses newCourseGraph [recC1]).toOption = some gC1 ∧
    getPrerequisitesFor gC1 "CS 999" = [none] ∧
    getPrerequisitesFor gC1 "CS 999" ≠ [] := by
  refine ⟨by decide, by decide, by decide⟩

/-- C1, amended: the lookups keep one entry per matching prerequisite
edge; an entry is the node-map lookup of the edge's other endpoint, so a
dangling endpoint contributes the placeholder `none` instead of being
skipped (and no error is raised — the functions are total). On the
spec's example the result is `[none]`, a one-element sequence. -/
theorem c1_amended :
    (∀ (g : CourseGraph) (c : String),
      (getPrerequisitesFor g c).length =
        (g.edges.filter (fun e => e.«to» == c && e.type == "prerequisite")).length ∧
      (none ∈ getPrerequisitesFor g c ↔
        ∃ e ∈ g.edges, e.«to» = c ∧ e.type = "prerequisite" ∧
          mapHas g.nodes e.«from» = false) ∧
      (getDependentsFor g c).length =
        (g.edges.filter (fun e => e.«from» == c && e.type == "prerequisite")).length ∧
      (none ∈ getDependentsFor g c ↔
        ∃ e ∈ g.edges, e.«from» = c ∧ e.type = "prerequisite" ∧
          mapHas g.nodes e.«to» = false)) ∧
    getPrerequisitesFor gC1 "CS 999" = [none] ∧
    getDependentsFor gC1dep "A" = [none] := by
  refine ⟨fun g c => ⟨?_, ?_, ?_, ?_⟩, by decide, by decide⟩
  · simp [getPrerequisitesFor]
  · simp [getPrerequisitesFor, List.mem_map, List.mem_filter, mapGet_eq_none_iff,
      and_assoc]
  · simp [getDependentsFor]
  · simp [getDependentsFor, List.mem_map, List.mem_filter, mapGet_eq_none_iff,
      and_assoc]

/-! ### C9: negative depth -/

theorem bfsLoop_neg_depth (edges : List Edge) (depth : Int) (h : depth < 0) :
    ∀ (fuel : Nat) (visited : List String) (queue : List QItem),
      bfsLoop edges depth fuel visited queue = visited := by
  intro fuel
  induction fuel with
  | zero => intro visited queue; cases queue <;> rfl
  | succ fuel ih =>
    intro visited queue
    cases queue with
    | nil => rfl
    | cons item rest =>
      have hskip : ((item.level : Int) > depth) := lt_of_lt_of_le h (Int.ofNat_nonneg _)
      simp only [bfsLoop]
      rw [if_pos (by simp [hskip])]
      exact ih visited rest

/-- C9, amended: a negative depth does not behave like `depth = 0`; the
seed items themselves are discarded by the `level > depth` test before
being visited, so the result is completely empty — no nodes and no
edges, even for seeds present in the node set. -/
theorem c9_amended (g : CourseGraph) (courseCodes : List String) (depth : Int)
    (h : depth < 0) :
    getSubgraph g courseCodes depth = { nodes := [], edges := [] } := by
  have hvis : subgraphVisited g courseCodes depth = [] :=
    bfsLoop_neg_depth g.edges depth h _ _ _
  simp [getSubgraph, hvis]

/-- The one-node graph used to separate negative depth from depth 0. -/
def gC9 : CourseGraph :=
  { nodes := [("A", { id := "A", label := "A", name := "Intro"
                      department := "CS", description := "", url := "" })]
    edges := [] }

/-- C9, counterexample: on a graph containing node `A`,
`getSubgraph(["A"], -1)` returns no nodes at all, while `depth = 0`
returns the seed node — the two behaviors differ. -/
theorem c9_counterexample :
    getSubgraph gC9 ["A"] (-1) = { nodes := [], edges := [] } ∧
    getSubgraph gC9 ["A"] 0 =
      { nodes := [{ id := "A", label := "A", name := "Intro"
                    department := "CS", description := "", url := "" }]
        edges := [] } ∧
    getSubgraph gC9 ["A"] (-1) ≠ getSubgraph gC9 ["A"] 0 := by
  refine ⟨by decide, by decide, by decide⟩

/-- C9 witness: the amended theorem applied at a concrete graph and
depth `-1`. -/
theorem c9_amended_witness :
    getSubgraph gC9 ["A"] (-1) = { nodes := [], edges := [] } :=
  c9_amended gC9 ["A"] (-1) (by decide)

/-! ### C10: the BFS traverses through codes that have no node -/

/-- Nodes `A` and `C` joined only through the never-scraped code `X`:
edges `A → X` and `X → C`. -/
def gC10 : CourseGraph :=
  { nodes := [("A", { id := "A", label := "A", name := "Intro"
                      department := "CS", description := "", url := "" }),
              ("C", { id := "C", label := "C", name := "Theory"
                      department := "CS", description := "", url := "" })]
    edges := [{ «from» := "A", «to» := "X", type := "prerequisite", label := "prerequisite" },
              { «from» := "X", «to» := "C", type := "prerequisite", label := "prerequisite" }] }

/-- C10: the visited set is computed from the edge list alone (the node
map is never consulted during expansion), and on `gC10` the dangling
code `X` is visited, bridges the BFS from `A` to `C`, and both incident
edges are returned even though `X` appears in no returned node — the
output is not node-closed. -/
theorem c10_dangling_traversal :
    (∀ (nodes1 nodes2 : List (String × Node)) (edges : List Edge)
       (seeds : List String) (depth : Int),
      subgraphVisited { nodes := nodes1, edges := edges } seeds depth =
      subgraphVisited { nodes := nodes2, edges := edges } seeds depth) ∧
    subgraphVisited gC10 ["A"] 2 = ["A", "X", "C"] ∧
    mapHas gC10.nodes "X" = false ∧
    (getSubgraph gC10 ["A"] 2).edges = gC10.edges ∧
    (getSubgraph gC10 ["A"] 2).nodes.map (fun n => n.id) = ["A", "C"] ∧
    "X" ∉ (getSubgraph gC10 ["A"] 2).nodes.map (fun n => n.id) := by
  refine ⟨fun nodes1 nodes2 edges seeds depth => rfl, by decide, by decide,
    by decide, by decide, by decide⟩

/-! ### Build lemmas: what buildFromCourses does to nodes and edges -/

/-- The edges the second pass generates for one record (both fields
present). -/
def edgesOfRecord (r : CourseRecord) : List Edge :=
  (r.prerequisites.getD []).map
    (fun p => { «from» := p, «to» := r.code
                type := "prerequisite", label := "prerequisite" }) ++
  (r.corequisites.getD []).map
    (fun c => { «from» := c, «to» := r.code
                type := "corequisite", label := "corequisite" })

/-- All edges the second pass generates for a record list. -/
def edgesOfRecords (rs : List CourseRecord) : List Edge :=
  (rs.map edgesOfRecord).flatten

theorem edgesOfRecords_cons (r : CourseRecord) (rs : List CourseRecord) :
    edgesOfRecords (r :: rs) = edgesOfRecord r ++ edgesOfRecords rs := by
  simp [edgesOfRecords]

theorem addCourse_edges (g : CourseGraph) (r : CourseRecord) :
    (addCourse g r).edges = g.edges := by
  unfold addCourse
  split <;> rfl

theorem foldl_addCourse_edges (rs : List CourseRecord) (g : CourseGraph) :
    (rs.foldl addCourse g).edges = g.edges := by
  induction rs generalizing g with
  | nil => rfl
  | cons r rs ih => rw [List.foldl_cons, ih, addCourse_edges]

theorem addCourse_mapHas_mono (g : CourseGraph) (r : CourseRecord) (k : String)
    (h : mapHas g.nodes k = true) : mapHas (addCourse g r).nodes k = true := by
  unfold addCourse
  split
  · exact h
  · simp only [mapHas, List.any_append, Bool.or_eq_true]
    left
    exact h

theorem addCourse_mapHas_self (g : CourseGraph) (r : CourseRecord) :
    mapHas (addCourse g r).nodes r.code = true := by
  unfold addCourse
  split
  · assumption
  · simp [mapHas]

theorem foldl_addCourse_mapHas_mono (rs : List CourseRecord) (g : CourseGraph)
    (k : String) (h : mapHas g.nodes k = true) :
    mapHas (rs.foldl addCourse g).nodes k = true := by
  induction rs generalizing g with
  | nil => exact h
  | cons r rs ih => exact ih _ (addCourse_mapHas_mono g r k h)

theorem foldl_addCourse_has (rs : List CourseRecord) (g : CourseGraph)
    (r : CourseRecord) (hr : r ∈ rs) :
    mapHas (rs.foldl addCourse g).nodes r.code = true := by
  induction rs generalizing g with
  | nil => cases hr
  | cons a rs ih =>
    rcases List.mem_cons.mp hr with h | h
    · rw [List.foldl_cons]
      subst h
      exact foldl_addCourse_mapHas_mono rs _ r.code (addCourse_mapHas_self g r)
    · rw [List.foldl_cons]
      exact ih _ h

theorem addCourse_stable (g : CourseGraph) (r : CourseRecord)
    (h : mapHas g.nodes r.code = true) : addCourse g r = g := by
  unfold addCourse
  rw [if_pos h]

theorem foldl_addCourse_stable (rs : List CourseRecord) (g : CourseGraph)
    (h : ∀ r ∈ rs, mapHas g.nodes r.code = true) : rs.foldl addCourse g = g := by
  induction rs with
  | nil => rfl
  | cons r rs ih =>
    rw [List.foldl_cons, addCourse_stable g r (h r (List.mem_cons_self r rs))]
    exact ih fun r' hr' => h r' (List.mem_cons_of_mem r hr')

theorem foldl_addPrereq_parts (ps : List String) (code : String) (g : CourseGraph) :
    (ps.foldl (fun h p => addPrerequisiteEdge h p code) g).nodes = g.nodes ∧
    (ps.foldl (fun h p => addPrerequisiteEdge h p code) g).edges =
      g.edges ++ ps.map (fun p => { «from» := p, «to» := code
                                    type := "prerequisite", label := "prerequisite" }) := by
  induction ps generalizing g with
  | nil => exact ⟨rfl, by simp⟩
  | cons p ps ih =>
    rcases ih (addPrerequisiteEdge g p code) with ⟨h1, h2⟩
    constructor
    · rw [List.foldl_cons, h1]; rfl
    · rw [List.foldl_cons, h2]
      simp [addPrerequisiteEdge]

theorem foldl_addCoreq_parts (cs : List String) (code : String) (g : CourseGraph) :
    (cs.foldl (fun h c => addCorequisiteEdge h c code) g).nodes = g.nodes ∧
    (cs.foldl (fun h c => addCorequisiteEdge h c code) g).edges =
      g.edges ++ cs.map (fun c => { «from» := c, «to» := code
                                    type := "corequisite", label := "corequisite" }) := by
  induction cs generalizing g with
  | nil => exact ⟨rfl, by simp⟩
  | cons c cs ih =>
    rcases ih (addCorequisiteEdge g c code) with ⟨h1, h2⟩
    constructor
    · rw [List.foldl_cons, h1]; rfl
    · rw [List.foldl_cons, h2]
      simp [addCorequisiteEdge]

theorem addEdgesOfCourse_ok_parts (g g' : CourseGraph) (r : CourseRecord)
    (h : addEdgesOfCourse g r = Except.ok g') :
    g'.nodes = g.nodes ∧ g'.edges = g.edges ++ edgesOfRecord r := by
  unfold addEdgesOfCourse at h
  cases hp : r.prerequisites with
  | none => rw [hp] at h; cases h
  | some ps =>
    rw [hp] at h
    cases hc : r.corequisites with
    | none => rw [hc] at h; cases h
    | some cs =>
      rw [hc] at h
      cases h
      rcases foldl_addPrereq_parts ps r.code g with ⟨hn1, he1⟩
      rcases foldl_addCoreq_parts cs r.code
        (ps.foldl (fun h p => addPrerequisiteEdge h p r.code) g) with ⟨hn2, he2⟩
      constructor
      · rw [hn2, hn1]
      · rw [he2, he1, edgesOfRecord, hp, hc, List.append_assoc]
        rfl

theorem foldlM_addEdges_ok_parts (rs : List CourseRecord) (g g' : CourseGraph)
    (h : rs.foldlM addEdgesOfCourse g = Except.ok g') :
    g'.nodes = g.nodes ∧ g'.edges = g.edges ++ edgesOfRecords rs := by
  induction rs generalizing g with
  | nil =>
    rw [List.foldlM_nil] at h
    have h' : Except.ok g = Except.ok g' := h
    cases h'
    exact ⟨rfl, by simp [edgesOfRecords]⟩
  | cons r rs ih =>
    rw [List.foldlM_cons] at h
    cases hstep : addEdgesOfCourse g r with
    | error e =>
      rw [hstep] at h
      exact Except.noConfusion h
    | ok g1 =>
      rw [hstep] at h
      have h' : rs.foldlM addEdgesOfCourse g1 = Except.ok g' := h
      rcases ih g1 h' with ⟨hn, he⟩
      rcases addEdgesOfCourse_ok_parts g g1 r hstep with ⟨hn1, he1⟩
      refine ⟨by rw [hn, hn1], ?_⟩
      rw [he, he1, edgesOfRecords_cons, List.append_assoc]

theorem buildFromCourses_ok_parts (g g' : CourseGraph) (rs : List CourseRecord)
    (h : buildFromCourses g rs = Except.ok g') :
    g'.nodes = (rs.foldl addCourse g).nodes ∧
    g'.edges = g.edges ++ edgesOfRecords rs := by
  unfold buildFromCourses at h
  rcases foldlM_addEdges_ok_parts rs _ g' h with ⟨hn, he⟩
  exact ⟨hn, by rw [he, foldl_addCourse_edges]⟩

theorem addEdgesOfCourse_ok_iff (g : CourseGraph) (r : CourseRecord) :
    (∃ g1, addEdgesOfCourse g r = Except.ok g1) ↔
      r.prerequisites.isSome ∧ r.corequisites.isSome := by
  unfold addEdgesOfCourse
  cases hp : r.prerequisites with
  | none => simp
  | some ps =>
    cases hc : r.corequisites with
    | none => simp
    | some cs => simp

theorem foldlM_addEdges_ok_iff (rs : List CourseRecord) (g : CourseGraph) :
    (∃ g', rs.foldlM addEdgesOfCourse g = Except.ok g') ↔
      ∀ r ∈ rs, r.prerequisites.isSome ∧ r.corequisites.isSome := by
  induction rs generalizing g with
  | nil =>
    rw [List.foldlM_nil]
    constructor
    · intro _ r hr
      cases hr
    · intro _
      exact ⟨g, rfl⟩
  | cons r rs ih =>
    rw [List.foldlM_cons]
    constructor
    · rintro ⟨g', hg'⟩
      cases hstep : addEdgesOfCourse g r with
      | error e =>
        rw [hstep] at hg'
        exact Except.noConfusion hg'
      | ok g1 =>
        rw [hstep] at hg'
        have h' : rs.foldlM addEdgesOfCourse g1 = Except.ok g' := hg'
        intro r' hr'
        rcases List.mem_cons.mp hr' with h | h
        · subst h
          exact (addEdgesOfCourse_ok_iff g r').mp ⟨g1, hstep⟩
        · exact (ih g1).mp ⟨g', h'⟩ r' h
    · intro hall
      rcases (addEdgesOfCourse_ok_iff g r).mpr (hall r (List.mem_cons_self r rs)) with ⟨g1, hg1⟩
      rcases (ih g1).mpr (fun r' h' => hall r' (List.mem_cons_of_mem r h')) with ⟨g', hg'⟩
      refine ⟨g', ?_⟩
      rw [hg1]
      exact hg'

theorem buildFromCourses_ok_iff (g : CourseGraph) (rs : List CourseRecord) :
    (∃ g', buildFromCourses g rs = Except.ok g') ↔
      ∀ r ∈ rs, r.prerequisites.isSome ∧ r.corequisites.isSome := by
  unfold buildFromCourses
  exact foldlM_addEdges_ok_iff rs _

/-! ### C5: malformed records make buildFromCourses throw -/

/-- A record missing its `prerequisites` array field. -/
def recMal : CourseRecord :=
  { code := "M 100", name := "Malformed", department := "M"
    description := "", url := ""
    prerequisites := none, corequisites := some [] }

/-- C5, failing input: on a record list containing a record without the
`prerequisites` field, `buildFromCourses` does not run to completion —
the `forEach` access throws a `TypeError`, and the build yields an
error, not a graph. -/
theorem c5_counterexample :
    recMal.prerequisites = none ∧
    (buildFromCourses newCourseGraph [recMal]).toOption = none := by
  exact ⟨rfl, by decide⟩

/-- C5, amended: `buildFromCourses` runs to completion iff every record
carries both array fields; a record with a missing field makes the
second pass throw a `TypeError` and the build aborts (the
treat-missing-as-empty recovery exists only in the suggest-courses
evaluator, which substitutes empty arrays). -/
theorem c5_amended (g : CourseGraph) (rs : List CourseRecord) :
    (∃ g', buildFromCourses g rs = Except.ok g') ↔
      ∀ r ∈ rs, r.prerequisites.isSome ∧ r.corequisites.isSome :=
  buildFromCourses_ok_iff g rs

/-! ### C2: rebuilding on the same store is NOT idempotent -/

/-- Records `A` and `B` with one prerequisite edge between them. -/
def recA : CourseRecord :=
  { code := "A", name := "Intro", department := "CS", description := "", url := ""
    prerequisites := some [], corequisites := some [] }

def recB : CourseRecord :=
  { code := "B", name := "Data", department := "CS", description := "", url := ""
    prerequisites := some ["A"], corequisites := some [] }

def nodeA : Node :=
  { id := "A", label := "A", name := "Intro", department := "CS"
    description := "", url := "" }

def nodeB : Node :=
  { id := "B", label := "B", name := "Data", department := "CS"
    description := "", url := "" }

def edgeAB : Edge :=
  { «from» := "A", «to» := "B", type := "prerequisite", label := "prerequisite" }

/-- The store after one build from `[recA, recB]`. -/
def gC2a : CourseGraph :=
  { nodes := [("A", nodeA), ("B", nodeB)], edges := [edgeAB] }

/-- The store after a second build of the same list on the same store:
the edge list is appended again. -/
def gC2b : CourseGraph :=
  { nodes := [("A", nodeA), ("B", nodeB)], edges := [edgeAB, edgeAB] }

/-- C2, counterexample: building twice from the same record list on the
same store does not reproduce the one-build snapshot — the edge
sequence is doubled. -/
theorem c2_counterexample :
    buildFromCourses newCourseGraph [recA, recB] = Except.ok gC2a ∧
    buildFromCourses gC2a [recA, recB] = Except.ok gC2b ∧
    getGraphData gC2b ≠ getGraphData gC2a := by
  refine ⟨rfl, rfl, by decide⟩

/-- C2, amended: a second `buildFromCourses` call on the same store does
not replace the prior state: the node snapshot is unchanged (every code
is already present, and `addCourse` ignores known codes), but the edge
pass appends the same edges again, so the edge sequence is doubled; the
two `getGraphData` snapshots are equal only when the record list
generates no edges at all. -/
theorem c2_amended (rs : List CourseRecord) (g1 g2 : CourseGraph)
    (h1 : buildFromCourses newCourseGraph rs = Except.ok g1)
    (h2 : buildFromCourses g1 rs = Except.ok g2) :
    g2.nodes = g1.nodes ∧
    g2.edges = g1.edges ++ g1.edges ∧
    (getGraphData g2 = getGraphData g1 ↔ g1.edges = []) := by
  rcases buildFromCourses_ok_parts _ g1 rs h1 with ⟨hn1, he1⟩
  rcases buildFromCourses_ok_parts _ g2 rs h2 with ⟨hn2, he2⟩
  have hstable : rs.foldl addCourse g1 = g1 := by
    refine foldl_addCourse_stable rs g1 (fun r hr => ?_)
    rw [hn1]
    exact foldl_addCourse_has rs newCourseGraph r hr
  have hnodes : g2.nodes = g1.nodes := by rw [hn2, hstable]
  have hedges1 : g1.edges = edgesOfRecords rs := by
    rw [he1]; rfl
  have hedges : g2.edges = g1.edges ++ g1.edges := by
    rw [he2, hedges1]
  refine ⟨hnodes, hedges, ?_⟩
  constructor
  · intro hdata
    have hee : g2.edges = g1.edges := congrArg GraphData.edges hdata
    rw [hedges] at hee
    have hlen : g1.edges.length + g1.edges.length = g1.edges.length := by
      conv_rhs => rw [← hee]
      simp
    have hzero : g1.edges.length = 0 := by omega
    exact List.length_eq_zero.mp hzero
  · intro hnil
    unfold getGraphData
    rw [hnodes, hedges, hnil]
    rfl

/-- C2 witness: the amended theorem applied at the concrete two-record
list. -/
theorem c2_amended_witness :
    gC2b.nodes = gC2a.nodes ∧
    gC2b.edges = gC2a.edges ++ gC2a.edges ∧
    (getGraphData gC2b = getGraphData gC2a ↔ gC2a.edges = []) :=
  c2_amended [recA, recB] gC2a gC2b rfl rfl

/-! ### C8: stats consistency over every reachable graph state -/

/-- The graph states reachable through the `CourseGraph` mutation API. -/
inductive Reachable : CourseGraph → Prop
  | new : Reachable newCourseGraph
  | addCourse (g : CourseGraph) (r : CourseRecord) :
      Reachable g → Reachable (addCourse g r)
  | addPrereq (g : CourseGraph) (a b : String) :
      Reachable g → Reachable (addPrerequisiteEdge g a b)
  | addCoreq (g : CourseGraph) (a b : String) :
      Reachable g → Reachable (addCorequisiteEdge g a b)

theorem reachable_edge_types (g : CourseGraph) (h : Reachable g) :
    ∀ e ∈ g.edges, e.type = "prerequisite" ∨ e.type = "corequisite" := by
  induction h with
  | new => intro e he; cases he
  | addCourse g r _ ih =>
    intro e he
    rw [addCourse_edges] at he
    exact ih e he
  | addPrereq g a b _ ih =>
    intro e he
    rcases List.mem_append.mp he with h' | h'
    · exact ih e h'
    · left
      rcases List.mem_singleton.mp h' with rfl
      rfl
  | addCoreq g a b _ ih =>
    intro e he
    rcases List.mem_append.mp he with h' | h'
    · exact ih e h'
    · right
      rcases List.mem_singleton.mp h' with rfl
      rfl

theorem edge_type_partition (l : List Edge)
    (h : ∀ e ∈ l, e.type = "prerequisite" ∨ e.type = "corequisite") :
    l.length = (l.filter (fun e => e.type == "prerequisite")).length +
      (l.filter (fun e => e.type == "corequisite")).length := by
  induction l with
  | nil => rfl
  | cons e l ih =>
    have hrest := ih fun e' he' => h e' (List.mem_cons_of_mem e he')
    rcases h e (List.mem_cons_self e l) with ht | ht
    · have hpe : (e.type == "prerequisite") = true := by rw [ht]; rfl
      have hce : (e.type == "corequisite") = false := by rw [ht]; rfl
      rw [List.filter_cons, List.filter_cons, hpe, hce]
      rw [if_pos rfl, if_neg (by simp)]
      simp only [List.length_cons]
      omega
    · have hpe : (e.type == "prerequisite") = false := by rw [ht]; rfl
      have hce : (e.type == "corequisite") = true := by rw [ht]; rfl
      rw [List.filter_cons, List.filter_cons, hpe, hce]
      rw [if_neg (by simp), if_pos rfl]
      simp only [List.length_cons]
      omega

theorem reachable_foldl_addCourse (rs : List CourseRecord) (g : CourseGraph)
    (h : Reachable g) : Reachable (rs.foldl addCourse g) := by
  induction rs generalizing g with
  | nil => exact h
  | cons r rs ih => exact ih _ (Reachable.addCourse g r h)

theorem reachable_foldl_addPrereq (ps : List String) (code : String)
    (g : CourseGraph) (h : Reachable g) :
    Reachable (ps.foldl (fun h p => addPrerequisiteEdge h p code) g) := by
  induction ps generalizing g with
  | nil => exact h
  | cons p ps ih => exact ih _ (Reachable.addPrereq g p code h)

theorem reachable_foldl_addCoreq (cs : List String) (code : String)
    (g : CourseGraph) (h : Reachable g) :
    Reachable (cs.foldl (fun h c => addCorequisiteEdge h c code) g) := by
  induction cs generalizing g with
  | nil => exact h
  | cons c cs ih => exact ih _ (Reachable.addCoreq g c code h)

theorem reachable_addEdgesOfCourse (g g' : CourseGraph) (r : CourseRecord)
    (h : addEdgesOfCourse g r = Except.ok g') (hg : Reachable g) : Reachable g' := by
  unfold addEdgesOfCourse at h
  cases hp : r.prerequisites with
  | none => rw [hp] at h; cases h
  | some ps =>
    rw [hp] at h
    cases hc : r.corequisites with
    | none => rw [hc] at h; cases h
    | some cs =>
      rw [hc] at h
      cases h
      exact reachable_foldl_addCoreq cs r.code _
        (reachable_foldl_addPrereq ps r.code g hg)

theorem reachable_foldlM_addEdges (rs : List CourseRecord) (g g' : CourseGraph)
    (h : rs.foldlM addEdgesOfCourse g = Except.ok g') (hg : Reachable g) :
    Reachable g' := by
  induction rs generalizing g with
  | nil =>
    rw [List.foldlM_nil] at h
    have h' : Except.ok g = Except.ok g' := h
    cases h'
    exact hg
  | cons r rs ih =>
    rw [List.foldlM_cons] at h
    cases hstep : addEdgesOfCourse g r with
    | error e =>
      rw [hstep] at h
      exact Except.noConfusion h
    | ok g1 =>
      rw [hstep] at h
      have h' : rs.foldlM addEdgesOfCourse g1 = Except.ok g' := h
      exact ih g1 h' (reachable_addEdgesOfCourse g g1 r hstep hg)

/-- C8: on every reachable graph state the stats are consistent —
`totalEdges` equals the sum of the two kind counts, because every
stored edge's type is one of exactly the two variants; moreover every
state a successful `buildFromCourses` produces from a reachable state
is itself reachable. -/
theorem c8_stats_consistency :
    (∀ g : CourseGraph, Reachable g →
      (getStats g).totalEdges =
        (getStats g).prerequisiteEdges + (getStats g).corequisiteEdges ∧
      ∀ e ∈ g.edges, e.type = "prerequisite" ∨ e.type = "corequisite") ∧
    (∀ (g g' : CourseGraph) (rs : List CourseRecord), Reachable g →
      buildFromCourses g rs = Except.ok g' → Reachable g') := by
  constructor
  · intro g hg
    have htypes := reachable_edge_types g hg
    exact ⟨edge_type_partition g.edges htypes, htypes⟩
  · intro g g' rs hg hbuild
    unfold buildFromCourses at hbuild
    exact reachable_foldlM_addEdges rs _ g' hbuild (reachable_foldl_addCourse rs g hg)

/-- C8 witness: the theorem applied at a concrete reachable state having
one edge of each kind. -/
theorem c8_stats_consistency_witness :
    (getStats (addCorequisiteEdge (addPrerequisiteEdge newCourseGraph "A" "B") "A" "C")).totalEdges =
      (getStats (addCorequisiteEdge (addPrerequisiteEdge newCourseGraph "A" "B") "A" "C")).prerequisiteEdges +
      (getStats (addCorequisiteEdge (addPrerequisiteEdge newCourseGraph "A" "B") "A" "C")).corequisiteEdges :=
  (c8_stats_consistency.1 _
    (Reachable.addCoreq _ "A" "C" (Reachable.addPrereq _ "A" "B" Reachable.new))).1

/-! ### Eligibility classification lemmas (suggest-courses) -/

/-- What one `forEach` iteration contributes to the `noPrereqs` tier
(mirrors the branch structure of `suggestStep`). -/
def classifyNoPrereq (orGroups : Option (List (List String)))
    (completedSet : List String) (course : CourseRecord) : Option Suggestion :=
  if isAlreadyCompleted orGroups completedSet course then none
  else
    let prereqs := course.prerequisites.getD []
    let coreqs := course.corequisites.getD []
    if prereqs.length == 0 && coreqs.length == 0 then
      some { code := course.code, name := course.name
             department := course.department
             prerequisites := [], corequisites := []
             missingPrereqs := [], missingCoreqs := [] }
    else none

/-- What one `forEach` iteration contributes to the `canTake` tier. -/
def classifyCanTake (orGroups : Option (List (List String)))
    (completedSet : List String) (course : CourseRecord) : Option Suggestion :=
  if isAlreadyCompleted orGroups completedSet course then none
  else
    let prereqs := course.prerequisites.getD []
    let coreqs := course.corequisites.getD []
    if prereqs.length == 0 && coreqs.length == 0 then none
    else
      let missingPrereqs := prereqs.filter (fun p => !isPrereqSatisfied orGroups completedSet p)
      let missingCoreqs := coreqs.filter (fun c => !isPrereqSatisfied orGroups completedSet c)
      if missingPrereqs.length == 0 && missingCoreqs.length == 0 then
        some { code := course.code, name := course.name
               department := course.department
               prerequisites := prereqs, corequisites := coreqs
               missingPrereqs := [], missingCoreqs := [] }
      else none

/-- What one `forEach` iteration contributes to the `partialPrereqs`
tier. -/
def classifyPartial (orGroups : Option (List (List String)))
    (completedSet : List String) (course : CourseRecord) : Option Suggestion :=
  if isAlreadyCompleted orGroups completedSet course then none
  else
    let prereqs := course.prerequisites.getD []
    let coreqs := course.corequisites.getD []
    if prereqs.length == 0 && coreqs.length == 0 then none
    else
      let missingPrereqs := prereqs.filter (fun p => !isPrereqSatisfied orGroups completedSet p)
      let missingCoreqs := coreqs.filter (fun c => !isPrereqSatisfied orGroups completedSet c)
      let completedPrereqs := prereqs.filter (fun p => isPrereqSatisfied orGroups completedSet p)
      let completedCoreqs := coreqs.filter (fun c => isPrereqSatisfied orGroups completedSet c)
      if missingPrereqs.length == 0 && missingCoreqs.length == 0 then none
      else if completedPrereqs.length > 0 || completedCoreqs.length > 0 then
        some { code := course.code, name := course.name
               department := course.department
               prerequisites := prereqs, corequisites := coreqs
               missingPrereqs := missingPrereqs, missingCoreqs := missingCoreqs }
      else none

theorem suggestStep_noPrereqs (orGroups : Option (List (List String)))
    (completedSet : List String) (s : Suggestions) (course : CourseRecord) :
    (suggestStep orGroups completedSet s course).noPrereqs =
      s.noPrereqs ++ (classifyNoPrereq orGroups completedSet course).toList := by
  simp only [suggestStep, classifyNoPrereq]
  repeat' split
  all_goals simp_all

theorem suggestStep_canTake (orGroups : Option (List (List String)))
    (completedSet : List String) (s : Suggestions) (course : CourseRecord) :
    (suggestStep orGroups completedSet s course).canTake =
      s.canTake ++ (classifyCanTake orGroups completedSet course).toList := by
  simp only [suggestStep, classifyCanTake]
  repeat' split
  all_goals simp_all

theorem suggestStep_partialTier (orGroups : Option (List (List String)))
    (completedSet : List String) (s : Suggestions) (course : CourseRecord) :
    (suggestStep orGroups completedSet s course).partialPrereqs =
      s.partialPrereqs ++ (classifyPartial orGroups completedSet course).toList := by
  simp only [suggestStep, classifyPartial]
  repeat' split
  all_goals simp_all

theorem foldl_suggestStep_noPrereqs (orGroups : Option (List (List String)))
    (completedSet : List String) (courses : List CourseRecord) (s0 : Suggestions) :
    (courses.foldl (suggestStep orGroups completedSet) s0).noPrereqs =
      s0.noPrereqs ++ courses.filterMap (classifyNoPrereq orGroups completedSet) := by
  induction courses generalizing s0 with
  | nil => simp
  | cons course courses ih =>
    rw [List.foldl_cons, ih, suggestStep_noPrereqs, List.filterMap_cons]
    cases h : classifyNoPrereq orGroups completedSet course <;> simp [h]

theorem foldl_suggestStep_canTake (orGroups : Option (List (List String)))
    (completedSet : List String) (courses : List CourseRecord) (s0 : Suggestions) :
    (courses.foldl (suggestStep orGroups completedSet) s0).canTake =
      s0.canTake ++ courses.filterMap (classifyCanTake orGroups completedSet) := by
  induction courses generalizing s0 with
  | nil => simp
  | cons course courses ih =>
    rw [List.foldl_cons, ih, suggestStep_canTake, List.filterMap_cons]
    cases h : classifyCanTake orGroups completedSet course <;> simp [h]

theorem foldl_suggestStep_partialTier (orGroups : Option (List (List String)))
    (completedSet : List String) (courses : List CourseRecord) (s0 : Suggestions) :
    (courses.foldl (suggestStep orGroups completedSet) s0).partialPrereqs =
      s0.partialPrereqs ++ courses.filterMap (classifyPartial orGroups completedSet) := by
  induction courses generalizing s0 with
  | nil => simp
  | cons course courses ih =>
    rw [List.foldl_cons, ih, suggestStep_partialTier, List.filterMap_cons]
    cases h : classifyPartial orGroups completedSet course <;> simp [h]

/-! ### Claim-side classification conditions -/

/-- Tier condition: no prerequisites and no corequisites at all. -/
def noPrereqCond (orGroups : Option (List (List String)))
    (completedSet : List String) (course : CourseRecord) : Prop :=
  isAlreadyCompleted orGroups completedSet course = false ∧
  course.prerequisites.getD [] = [] ∧
  course.corequisites.getD [] = []

/-- Tier condition: at least one requirement, and every prerequisite and
every corequisite satisfied. -/
def canTakeCond (orGroups : Option (List (List String)))
    (completedSet : List String) (course : CourseRecord) : Prop :=
  isAlreadyCompleted orGroups completedSet course = false ∧
  (course.prerequisites.getD [] ≠ [] ∨ course.corequisites.getD [] ≠ []) ∧
  (∀ r ∈ course.prerequisites.getD [], isPrereqSatisfied orGroups completedSet r = true) ∧
  (∀ r ∈ course.corequisites.getD [], isPrereqSatisfied orGroups completedSet r = true)

/-- Tier condition: some requirement unsatisfied, but at least one
prerequisite or corequisite satisfied. -/
def partialCond (orGroups : Option (List (List String)))
    (completedSet : List String) (course : CourseRecord) : Prop :=
  isAlreadyCompleted orGroups completedSet course = false ∧
  (course.prerequisites.getD [] ≠ [] ∨ course.corequisites.getD [] ≠ []) ∧
  ¬((∀ r ∈ course.prerequisites.getD [], isPrereqSatisfied orGroups completedSet r = true) ∧
    (∀ r ∈ course.corequisites.getD [], isPrereqSatisfied orGroups completedSet r = true)) ∧
  ((∃ r ∈ course.prerequisites.getD [], isPrereqSatisfied orGroups completedSet r = true) ∨
   (∃ r ∈ course.corequisites.getD [], isPrereqSatisfied orGroups completedSet r = true))

instance (orGroups : Option (List (List String))) (completedSet : List String) :
    DecidablePred (noPrereqCond orGroups completedSet) := fun course => by
  unfold noPrereqCond
  infer_instance

instance (orGroups : Option (List (List String))) (completedSet : List String) :
    DecidablePred (canTakeCond orGroups completedSet) := fun course => by
  unfold canTakeCond
  infer_instance

instance (orGroups : Option (List (List String))) (completedSet : List String) :
    DecidablePred (partialCond orGroups completedSet) := fun course => by
  unfold partialCond
  infer_instance

/-- The response entry a `noPrereqs` course produces. -/
def entryNoPrereq (course : CourseRecord) : Suggestion :=
  { code := course.code, name := course.name, department := course.department
    prerequisites := [], corequisites := []
    missingPrereqs := [], missingCoreqs := [] }

/-- The response entry a `canTake` course produces. -/
def entryCanTake (course : CourseRecord) : Suggestion :=
  { code := course.code, name := course.name, department := course.department
    prerequisites := course.prerequisites.getD []
    corequisites := course.corequisites.getD []
    missingPrereqs := [], missingCoreqs := [] }

/-- The response entry a `partialPrereqs` course produces. -/
def entryPartial (orGroups : Option (List (List String)))
    (completedSet : List String) (course : CourseRecord) : Suggestion :=
  { code := course.code, name := course.name, department := course.department
    prerequisites := course.prerequisites.getD []
    corequisites := course.corequisites.getD []
    missingPrereqs := (course.prerequisites.getD []).filter
      (fun p => !isPrereqSatisfied orGroups completedSet p)
    missingCoreqs := (course.corequisites.getD []).filter
      (fun c => !isPrereqSatisfied orGroups completedSet c) }

theorem classifyNoPrereq_eq (orGroups : Option (List (List String)))
    (completedSet : List String) (course : CourseRecord) :
    classifyNoPrereq orGroups completedSet course =
      if noPrereqCond orGroups completedSet course then some (entryNoPrereq course)
      else none := by
  simp only [classifyNoPrereq, noPrereqCond, entryNoPrereq]
  by_cases hA : isAlreadyCompleted orGroups completedSet course = true
  · simp [hA]
  · rw [Bool.not_eq_true] at hA
    by_cases h0 : course.prerequisites.getD [] = [] ∧ course.corequisites.getD [] = []
    · have hb : ((course.prerequisites.getD []).length == 0 &&
          (course.corequisites.getD []).length == 0) = true := by
        simp [List.length_eq_zero, h0.1, h0.2]
      simp [hA, hb, h0.1, h0.2]
    · have hb : ((course.prerequisites.getD []).length == 0 &&
          (course.corequisites.getD []).length == 0) = false := by
        rw [Bool.eq_false_iff]
        intro hcontra
        exact h0 (by simpa [List.length_eq_zero] using hcontra)
      simp [hA, hb]
      rw [if_neg h0]

theorem missing_empty_iff (orGroups : Option (List (List String)))
    (completedSet : List String) (l : List String) :
    (((l.filter (fun p => !isPrereqSatisfied orGroups completedSet p)).length == 0) = true) ↔
      ∀ r ∈ l, isPrereqSatisfied orGroups completedSet r = true := by
  simp [List.length_eq_zero, List.filter_eq_nil_iff]

theorem completed_pos_iff (orGroups : Option (List (List String)))
    (completedSet : List String) (l : List String) :
    0 < (l.filter (fun p => isPrereqSatisfied orGroups completedSet p)).length ↔
      ∃ r ∈ l, isPrereqSatisfied orGroups completedSet r = true := by
  simp [List.length_pos, List.filter_eq_nil_iff]

theorem classifyCanTake_eq (orGroups : Option (List (List String)))
    (completedSet : List String) (course : CourseRecord) :
    classifyCanTake orGroups completedSet course =
      if canTakeCond orGroups completedSet course then some (entryCanTake course)
      else none := by
  simp only [classifyCanTake, canTakeCond, entryCanTake]
  by_cases hA : isAlreadyCompleted orGroups completedSet course = true
  · simp [hA]
  · rw [Bool.not_eq_true] at hA
    by_cases h0 : course.prerequisites.getD [] = [] ∧ course.corequisites.getD [] = []
    · have hb : ((course.prerequisites.getD []).length == 0 &&
          (course.corequisites.getD []).length == 0) = true := by
        simp [List.length_eq_zero, h0.1, h0.2]
      simp [hA, hb]
      split
      · rename_i hcon
        exfalso
        rcases hcon with ⟨hne', -, -⟩
        rcases hne' with h | h
        · exact h h0.1
        · exact h h0.2
      · rfl
    · have hb : ((course.prerequisites.getD []).length == 0 &&
          (course.corequisites.getD []).length == 0) = false := by
        rw [Bool.eq_false_iff]
        intro hcontra
        exact h0 (by simpa [List.length_eq_zero] using hcontra)
      have hne : course.prerequisites.getD [] ≠ [] ∨ course.corequisites.getD [] ≠ [] := by
        by_contra hcon
        push_neg at hcon
        exact h0 ⟨hcon.1, hcon.2⟩
      by_cases hsat :
          (∀ r ∈ course.prerequisites.getD [], isPrereqSatisfied orGroups completedSet r = true) ∧
          (∀ r ∈ course.corequisites.getD [], isPrereqSatisfied orGroups completedSet r = true)
      · have hm : (((course.prerequisites.getD []).filter
            (fun p => !isPrereqSatisfied orGroups completedSet p)).length == 0 &&
            ((course.corequisites.getD []).filter
            (fun c => !isPrereqSatisfied orGroups completedSet c)).length == 0) = true := by
          rw [Bool.and_eq_true]
          exact ⟨(missing_empty_iff orGroups completedSet _).mpr hsat.1,
                 (missing_empty_iff orGroups completedSet _).mpr hsat.2⟩
        simp [hA, hb, hm]
        exact ⟨hne, hsat.1, hsat.2⟩
      · have hm : (((course.prerequisites.getD []).filter
            (fun p => !isPrereqSatisfied orGroups completedSet p)).length == 0 &&
            ((course.corequisites.getD []).filter
            (fun c => !isPrereqSatisfied orGroups completedSet c)).length == 0) = false := by
          rw [Bool.eq_false_iff]
          intro hcontra
          rw [Bool.and_eq_true] at hcontra
          exact hsat ⟨(missing_empty_iff orGroups completedSet _).mp hcontra.1,
                      (missing_empty_iff orGroups completedSet _).mp hcontra.2⟩
        simp [hA, hb, hm]
        split
        · rename_i hcon
          exact absurd ⟨hcon.2.1, hcon.2.2⟩ hsat
        · rfl

theorem classifyPartial_eq (orGroups : Option (List (List String)))
    (completedSet : List String) (course : CourseRecord) :
    classifyPartial orGroups completedSet course =
      if partialCond orGroups completedSet course then
        some (entryPartial orGroups completedSet course)
      else none := by
  by_cases hA : isAlreadyCompleted orGroups completedSet course = true
  · have hcond : ¬ partialCond orGroups completedSet course := by
      intro hc
      rw [hc.1] at hA
      cases hA
    rw [if_neg hcond]
    unfold classifyPartial
    simp [hA]
  · rw [Bool.not_eq_true] at hA
    by_cases h0 : course.prerequisites.getD [] = [] ∧ course.corequisites.getD [] = []
    · have hcond : ¬ partialCond orGroups completedSet course := by
        rintro ⟨-, hne', -, -⟩
        rcases hne' with h | h
        · exact h h0.1
        · exact h h0.2
      rw [if_neg hcond]
      have hb : ((course.prerequisites.getD []).length == 0 &&
          (course.corequisites.getD []).length == 0) = true := by
        simp [List.length_eq_zero, h0.1, h0.2]
      unfold classifyPartial
      simp [hA, hb]
    · have hne : course.prerequisites.getD [] ≠ [] ∨ course.corequisites.getD [] ≠ [] := by
        by_contra hcon
        push_neg at hcon
        exact h0 ⟨hcon.1, hcon.2⟩
      have hb : ((course.prerequisites.getD []).length == 0 &&
          (course.corequisites.getD []).length == 0) = false := by
        rw [Bool.eq_false_iff]
        intro hcontra
        exact h0 (by simpa [List.length_eq_zero] using hcontra)
      by_cases hsat :
          (∀ r ∈ course.prerequisites.getD [], isPrereqSatisfied orGroups completedSet r = true) ∧
          (∀ r ∈ course.corequisites.getD [], isPrereqSatisfied orGroups completedSet r = true)
      · have hcond : ¬ partialCond orGroups completedSet course := by
          rintro ⟨-, -, hnsat, -⟩
          exact hnsat hsat
        rw [if_neg hcond]
        have hm : (((course.prerequisites.getD []).filter
            (fun p => !isPrereqSatisfied orGroups completedSet p)).length == 0 &&
            ((course.corequisites.getD []).filter
            (fun c => !isPrereqSatisfied orGroups completedSet c)).length == 0) = true := by
          rw [Bool.and_eq_true]
          exact ⟨(missing_empty_iff orGroups completedSet _).mpr hsat.1,
                 (missing_empty_iff orGroups completedSet _).mpr hsat.2⟩
        unfold classifyPartial
        simp [hA, hb, hm]
      · have hm : (((course.prerequisites.getD []).filter
            (fun p => !isPrereqSatisfied orGroups completedSet p)).length == 0 &&
            ((course.corequisites.getD []).filter
            (fun c => !isPrereqSatisfied orGroups completedSet c)).length == 0) = false := by
          rw [Bool.eq_false_iff]
          intro hcontra
          rw [Bool.and_eq_true] at hcontra
          exact hsat ⟨(missing_empty_iff orGroups completedSet _).mp hcontra.1,
                      (missing_empty_iff orGroups completedSet _).mp hcontra.2⟩
        by_cases hprog :
            (∃ r ∈ course.prerequisites.getD [], isPrereqSatisfied orGroups completedSet r = true) ∨
            (∃ r ∈ course.corequisites.getD [], isPrereqSatisfied orGroups completedSet r = true)
        · have hcond : partialCond orGroups completedSet course := ⟨hA, hne, hsat, hprog⟩
          rw [if_pos hcond]
          unfold classifyPartial entryPartial
          rcases hprog with h | h
          · simp [hA, hb, hm, gt_iff_lt, (completed_pos_iff orGroups completedSet _).mpr h]
          · simp [hA, hb, hm, gt_iff_lt, (completed_pos_iff orGroups completedSet _).mpr h]
        · have hcond : ¬ partialCond orGroups completedSet course := by
            rintro ⟨-, -, -, hp⟩
            exact hprog hp
          rw [if_neg hcond]
          push_neg at hprog
          have hp1 : ¬ 0 < ((course.prerequisites.getD []).filter
              (fun p => isPrereqSatisfied orGroups completedSet p)).length := by
            intro h
            rcases (completed_pos_iff orGroups completedSet _).mp h with ⟨r, hr, hs⟩
            exact absurd hs (by simpa using hprog.1 r hr)
          have hp2 : ¬ 0 < ((course.corequisites.getD []).filter
              (fun c => isPrereqSatisfied orGroups completedSet c)).length := by
            intro h
            rcases (completed_pos_iff orGroups completedSet _).mp h with ⟨r, hr, hs⟩
            exact absurd hs (by simpa using hprog.2 r hr)
          unfold classifyPartial
          simp [hA, hb, hm, gt_iff_lt, hp1, hp2]

theorem filterMap_ite {α β : Type} (p : α → Prop) [DecidablePred p] (f : α → β)
    (l : List α) :
    (l.filterMap (fun a => if p a then some (f a) else none)) =
      (l.filter (fun a => decide (p a))).map f := by
  induction l with
  | nil => rfl
  | cons a l ih =>
    by_cases h : p a
    · simp [h, ih]
    · simp [h, ih]

theorem suggestCourses_noPrereqs_eq (coursesData : List CourseRecord)
    (completedCourses : List String) (orGroups : Option (List (List String))) :
    (suggestCourses coursesData completedCourses orGroups).noPrereqs =
      List.insertionSort sugLe
        ((coursesData.filter (fun course =>
            decide (noPrereqCond orGroups (mkCompletedSet completedCourses) course))).map
          entryNoPrereq) := by
  simp only [suggestCourses]
  rw [foldl_suggestStep_noPrereqs]
  have hfm : coursesData.filterMap (classifyNoPrereq orGroups (mkCompletedSet completedCourses)) =
      (coursesData.filter (fun course =>
        decide (noPrereqCond orGroups (mkCompletedSet completedCourses) course))).map
        entryNoPrereq := by
    rw [← filterMap_ite]
    congr 1
    funext course
    exact classifyNoPrereq_eq orGroups (mkCompletedSet completedCourses) course
  rw [hfm]
  rfl

theorem suggestCourses_canTake_eq (coursesData : List CourseRecord)
    (completedCourses : List String) (orGroups : Option (List (List String))) :
    (suggestCourses coursesData completedCourses orGroups).canTake =
      List.insertionSort sugLe
        ((coursesData.filter (fun course =>
            decide (canTakeCond orGroups (mkCompletedSet completedCourses) course))).map
          entryCanTake) := by
  simp only [suggestCourses]
  rw [foldl_suggestStep_canTake]
  have hfm : coursesData.filterMap (classifyCanTake orGroups (mkCompletedSet completedCourses)) =
      (coursesData.filter (fun course =>
        decide (canTakeCond orGroups (mkCompletedSet completedCourses) course))).map
        entryCanTake := by
    rw [← filterMap_ite]
    congr 1
    funext course
    exact classifyCanTake_eq orGroups (mkCompletedSet completedCourses) course
  rw [hfm]
  rfl

theorem suggestCourses_partial_eq (coursesData : List CourseRecord)
    (completedCourses : List String) (orGroups : Option (List (List String))) :
    (suggestCourses coursesData completedCourses orGroups).partialPrereqs =
      List.insertionSort sugLe
        ((coursesData.filter (fun course =>
            decide (partialCond orGroups (mkCompletedSet completedCourses) course))).map
          (entryPartial orGroups (mkCompletedSet completedCourses))) := by
  simp only [suggestCourses]
  rw [foldl_suggestStep_partialTier]
  have hfm : coursesData.filterMap (classifyPartial orGroups (mkCompletedSet completedCourses)) =
      (coursesData.filter (fun course =>
        decide (partialCond orGroups (mkCompletedSet completedCourses) course))).map
        (entryPartial orGroups (mkCompletedSet completedCourses)) := by
    rw [← filterMap_ite]
    congr 1
    funext course
    exact classifyPartial_eq orGroups (mkCompletedSet completedCourses) course
  rw [hfm]
  rfl

/-! ### C6: the three readiness tiers -/

/-- C6: `suggestCourses` classifies every course record exactly as the
three tier conditions prescribe — `noPrereqs` holds the not-completed
courses with zero prerequisites and zero corequisites, `canTake` those
with at least one requirement and every requirement satisfied,
`partialPrereqs` those with at least one but not all requirements
satisfied; each tier is the sorted image of the corresponding filter,
each output is sorted by code, and a course with at least one
requirement and zero requirements satisfied meets none of the three
conditions (so it appears in no tier). -/
theorem c6_classification (coursesData : List CourseRecord)
    (completedCourses : List String) (orGroups : Option (List (List String))) :
    ((suggestCourses coursesData completedCourses orGroups).noPrereqs =
        List.insertionSort sugLe
          ((coursesData.filter (fun course =>
              decide (noPrereqCond orGroups (mkCompletedSet completedCourses) course))).map
            entryNoPrereq) ∧
      (suggestCourses coursesData completedCourses orGroups).canTake =
        List.insertionSort sugLe
          ((coursesData.filter (fun course =>
              decide (canTakeCond orGroups (mkCompletedSet completedCourses) course))).map
            entryCanTake) ∧
      (suggestCourses coursesData completedCourses orGroups).partialPrereqs =
        List.insertionSort sugLe
          ((coursesData.filter (fun course =>
              decide (partialCond orGroups (mkCompletedSet completedCourses) course))).map
            (entryPartial orGroups (mkCompletedSet completedCourses)))) ∧
    (List.Sorted sugLe (suggestCourses coursesData completedCourses orGroups).noPrereqs ∧
      List.Sorted sugLe (suggestCourses coursesData completedCourses orGroups).canTake ∧
      List.Sorted sugLe (suggestCourses coursesData completedCourses orGroups).partialPrereqs) ∧
    (∀ course : CourseRecord,
      isAlreadyCompleted orGroups (mkCompletedSet completedCourses) course = false →
      (course.prerequisites.getD [] ≠ [] ∨ course.corequisites.getD [] ≠ []) →
      (∀ r ∈ course.prerequisites.getD [],
        isPrereqSatisfied orGroups (mkCompletedSet completedCourses) r = false) →
      (∀ r ∈ course.corequisites.getD [],
        isPrereqSatisfied orGroups (mkCompletedSet completedCourses) r = false) →
      ¬ noPrereqCond orGroups (mkCompletedSet completedCourses) course ∧
      ¬ canTakeCond orGroups (mkCompletedSet completedCourses) course ∧
      ¬ partialCond orGroups (mkCompletedSet completedCourses) course) := by
  refine ⟨⟨suggestCourses_noPrereqs_eq coursesData completedCourses orGroups,
           suggestCourses_canTake_eq coursesData completedCourses orGroups,
           suggestCourses_partial_eq coursesData completedCourses orGroups⟩,
          ⟨?_, ?_, ?_⟩, ?_⟩
  · rw [suggestCourses_noPrereqs_eq]
    exact List.sorted_insertionSort sugLe _
  · rw [suggestCourses_canTake_eq]
    exact List.sorted_insertionSort sugLe _
  · rw [suggestCourses_partial_eq]
    exact List.sorted_insertionSort sugLe _
  · intro course hA hne hsatP hsatC
    refine ⟨?_, ?_, ?_⟩
    · rintro ⟨-, hP, hC⟩
      rcases hne with h | h
      · exact h hP
      · exact h hC
    · rintro ⟨-, -, hallP, hallC⟩
      rcases hne with h | h
      · rcases List.exists_mem_of_ne_nil _ h with ⟨r, hr⟩
        have h1 := hallP r hr
        have h2 := hsatP r hr
        rw [h1] at h2
        cases h2
      · rcases List.exists_mem_of_ne_nil _ h with ⟨r, hr⟩
        have h1 := hallC r hr
        have h2 := hsatC r hr
        rw [h1] at h2
        cases h2
    · rintro ⟨-, -, -, hprog⟩
      rcases hprog with ⟨r, hr, hs⟩ | ⟨r, hr, hs⟩
      · have h2 := hsatP r hr
        rw [hs] at h2
        cases h2
      · have h2 := hsatC r hr
        rw [hs] at h2
        cases h2

/-- A course whose single prerequisite `PHYS101` is satisfied by no
OR-group: zero requirements met. -/
def recPhys : CourseRecord :=
  { code := "CS500", name := "Quantum", department := "CS"
    description := "", url := ""
    prerequisites := some ["PHYS101"], corequisites := some [] }

/-- C6 witness: on the spec's OR-group example, a course requiring only
`PHYS101` satisfies none of the three tier conditions. -/
theorem c6_classification_witness :
    ¬ noPrereqCond (some [["CS101"], ["MATH101"]]) (mkCompletedSet []) recPhys ∧
    ¬ canTakeCond (some [["CS101"], ["MATH101"]]) (mkCompletedSet []) recPhys ∧
    ¬ partialCond (some [["CS101"], ["MATH101"]]) (mkCompletedSet []) recPhys :=
  (c6_classification [recPhys] [] (some [["CS101"], ["MATH101"]])).2.2 recPhys
    (by decide) (by decide) (by decide) (by decide)

/-! ### C7: the satisfaction predicate -/

/-- A course requiring `CS101` (stored uppercase, as scraped). -/
def recC7 : CourseRecord :=
  { code := "CS201", name := "Data Structures", department := "CS"
    description := "", url := ""
    prerequisites := some ["CS101"], corequisites := some [] }

/-- C7, counterexample: with `completed = ["cs101"]` (lower case) and no
`orGroups`, the required code `CS101` is NOT a member of `completed`,
yet it is satisfied — the predicate tests membership in the uppercased
completed set, not in `completed` itself — and the course consequently
lands in `canTake`. -/
theorem c7_counterexample :
    "CS101" ∉ ["cs101"] ∧
    isPrereqSatisfied none (mkCompletedSet ["cs101"]) "CS101" = true ∧
    (suggestCourses [recC7] ["cs101"] none).canTake =
      [{ code := "CS201", name := "Data Structures", department := "CS"
         prerequisites := ["CS101"], corequisites := []
         missingPrereqs := [], missingCoreqs := [] }] := by
  refine ⟨by decide, by decide, by decide⟩

/-- C7, amended: with `orGroups` present a required code is satisfied
iff some group contains it and the completed set is ignored entirely
(the whole response is independent of `completed`); with `orGroups`
absent a required code `r` is satisfied iff `r` is a member of the
UPPERCASED completed list (each completed entry is uppercased on
ingestion; `r` itself is not normalized, so the comparison on `r` is
exact); and the same predicate, applied to the course's own code,
decides the already-completed skip. -/
theorem c7_amended :
    (∀ (groups : List (List String)) (completedSet : List String) (r : String),
      isPrereqSatisfied (some groups) completedSet r = true ↔ ∃ g ∈ groups, r ∈ g) ∧
    (∀ (coursesData : List CourseRecord) (c1 c2 : List String)
        (groups : List (List String)),
      suggestCourses coursesData c1 (some groups) =
        suggestCourses coursesData c2 (some groups)) ∧
    (∀ (completedCourses : List String) (r : String),
      isPrereqSatisfied none (mkCompletedSet completedCourses) r = true ↔
        r ∈ completedCourses.map jsToUpper) ∧
    (∀ (orGroups : Option (List (List String))) (completedSet : List String)
        (course : CourseRecord),
      isAlreadyCompleted orGroups completedSet course =
        isPrereqSatisfied orGroups completedSet course.code) := by
  refine ⟨?_, ?_, ?_, ?_⟩
  · intro groups completedSet r
    simp [isPrereqSatisfied, List.any_eq_true, List.contains]
  · intro coursesData c1 c2 groups
    rfl
  · intro completedCourses r
    simp [isPrereqSatisfied, mkCompletedSet, List.contains]
  · intro orGroups completedSet course
    cases orGroups <;> rfl

/-! ### BFS machinery: the instrumented loop -/

/-- `bfsLoop` instrumented with the level at which each code is added
to `visited` (ghost data for the proofs; projecting the pairs onto
their first components recovers `bfsLoop` exactly). -/
def bfsLoopL (edges : List Edge) (depth : Int) :
    Nat → List (String × Nat) → List QItem → List (String × Nat)
  | _, visited, [] => visited
  | 0, visited, _ :: _ => visited
  | fuel + 1, visited, item :: queue =>
    if (visited.map Prod.fst).contains item.code || (item.level : Int) > depth then
      bfsLoopL edges depth fuel visited queue
    else
      let visited' := visited ++ [(item.code, item.level)]
      let newItems := (connectedEdges edges item.code).filterMap
        (fun edge =>
          let nc := nextCode edge item.code
          if (visited'.map Prod.fst).contains nc then none
          else some ⟨nc, item.level + 1⟩)
      bfsLoopL edges depth fuel visited' (queue ++ newItems)

theorem bfsLoop_eq_bfsLoopL (edges : List Edge) (depth : Int) :
    ∀ (fuel : Nat) (visited : List (String × Nat)) (queue : List QItem),
      bfsLoop edges depth fuel (visited.map Prod.fst) queue =
        (bfsLoopL edges depth fuel visited queue).map Prod.fst := by
  intro fuel
  induction fuel with
  | zero => intro v q; cases q <;> rfl
  | succ fuel ih =>
    intro v q
    cases q with
    | nil => rfl
    | cons item rest =>
      simp only [bfsLoop, bfsLoopL, List.map_append, List.map_cons, List.map_nil]
      by_cases hcond :
          ((v.map Prod.fst).contains item.code || decide ((item.level : Int) > depth)) = true
      · rw [if_pos hcond, if_pos hcond]
        exact ih v rest
      · rw [if_neg hcond, if_neg hcond]
        have h2 := ih (v ++ [(item.code, item.level)])
          (rest ++ (connectedEdges edges item.code).filterMap
            (fun edge =>
              if (v.map Prod.fst ++ [item.code]).contains (nextCode edge item.code) then none
              else some ⟨nextCode edge item.code, item.level + 1⟩))
        simp only [List.map_append, List.map_cons, List.map_nil] at h2
        exact h2

/-- The instrumented visited list of `getSubgraph`. -/
def bfsVisitedPairs (g : CourseGraph) (courseCodes : List String) (depth : Int) :
    List (String × Nat) :=
  bfsLoopL g.edges depth (bfsFuel g.edges courseCodes) []
    (courseCodes.map (fun code => ⟨code, 0⟩))

theorem subgraphVisited_eq_pairs (g : CourseGraph) (courseCodes : List String)
    (depth : Int) :
    subgraphVisited g courseCodes depth = (bfsVisitedPairs g courseCodes depth).map Prod.fst := by
  unfold subgraphVisited bfsVisitedPairs
  have h := bfsLoop_eq_bfsLoopL g.edges depth (bfsFuel g.edges courseCodes) []
    (courseCodes.map (fun code => ⟨code, 0⟩))
  simpa using h

/-! ### Adjacency and bounded undirected reachability -/

/-- The neighbor codes the loop explores from `code`: the other
endpoint of every incident edge, regardless of direction and kind. -/
def adjOf (edges : List Edge) (code : String) : List String :=
  (connectedEdges edges code).map (fun edge => nextCode edge code)

/-- Membership in `adjOf` in symmetric endpoint form. -/
theorem adjOf_mem_iff (edges : List Edge) (a b : String) :
    b ∈ adjOf edges a ↔
      ∃ e ∈ edges, (e.«from» = a ∧ e.«to» = b) ∨ (e.«to» = a ∧ e.«from» = b) := by
  unfold adjOf connectedEdges nextCode
  simp only [List.mem_map, List.mem_filter, Bool.or_eq_true, beq_iff_eq]
  constructor
  · rintro ⟨e, ⟨he, hor⟩, hnext⟩
    refine ⟨e, he, ?_⟩
    by_cases hf : e.«from» = a
    · left
      refine ⟨hf, ?_⟩
      rw [if_pos (by simp [hf])] at hnext
      exact hnext
    · rcases hor with hor | hor
      · exact absurd hor hf
      · right
        refine ⟨hor, ?_⟩
        rw [if_neg (by simp [hf])] at hnext
        exact hnext
  · rintro ⟨e, he, hcase⟩
    rcases hcase with ⟨h1, h2⟩ | ⟨h1, h2⟩
    · exact ⟨e, ⟨he, Or.inl h1⟩, by rw [if_pos (by simp [h1])]; exact h2⟩
    · by_cases hf : e.«from» = a
      · refine ⟨e, ⟨he, Or.inl hf⟩, ?_⟩
        rw [if_pos (by simp [hf])]
        rw [h1, ← h2, hf]
      · exact ⟨e, ⟨he, Or.inr h1⟩, by rw [if_neg (by simp [hf])]; exact h2⟩

/-- Adjacency ignores edge direction: it is symmetric. -/
theorem adjOf_symm (edges : List Edge) (a b : String) :
    b ∈ adjOf edges a ↔ a ∈ adjOf edges b := by
  rw [adjOf_mem_iff, adjOf_mem_iff]
  constructor
  · rintro ⟨e, he, h⟩
    exact ⟨e, he, h.symm.imp And.symm And.symm⟩
  · rintro ⟨e, he, h⟩
    exact ⟨e, he, h.symm.imp And.symm And.symm⟩

/-- `ReachLe edges a b n`: `b` is within `n` undirected hops of `a`. -/
inductive ReachLe (edges : List Edge) : String → String → Nat → Prop
  | refl (c : String) (n : Nat) : ReachLe edges c c n
  | step {a b c : String} {n : Nat} :
      ReachLe edges a b n → c ∈ adjOf edges b → ReachLe edges a c (n + 1)

theorem ReachLe.mono {edges : List Edge} {a b : String} {n m : Nat}
    (h : ReachLe edges a b n) (hnm : n ≤ m) : ReachLe edges a b m := by
  induction h generalizing m with
  | refl => exact ReachLe.refl _ m
  | step hab hadj ih =>
    cases m with
    | zero => exact absurd hnm (by omega)
    | succ m => exact ReachLe.step (ih (Nat.le_of_succ_le_succ hnm)) hadj

theorem reachLe_zero {edges : List Edge} {a b : String}
    (h : ReachLe edges a b 0) : a = b := by
  cases h
  rfl

/-! ### Fuel measure and loop invariant -/

/-- Codes of the universe not yet visited. -/
def unvisitedCount (U : List String) (V : List (String × Nat)) : Nat :=
  (U.filter (fun c => !(V.map Prod.fst).contains c)).length

/-- The loop measure: every iteration strictly decreases it. -/
def bfsMeasure (edges : List Edge) (U : List String) (V : List (String × Nat))
    (Q : List QItem) : Nat :=
  Q.length + (1 + edges.length) * unvisitedCount U V

/-- The BFS loop invariant. -/
structure BfsInv (edges : List Edge) (d : Nat) (seeds : List String)
    (U : List String) (V : List (String × Nat)) (Q : List QItem) : Prop where
  qU : ∀ i ∈ Q, i.code ∈ U
  nodup : (V.map Prod.fst).Nodup
  qmono : Q.Pairwise (fun a b => a.level ≤ b.level ∧ b.level ≤ a.level + 1)
  vq : ∀ p ∈ V, ∀ i ∈ Q, p.2 ≤ i.level
  vd : ∀ p ∈ V, p.2 ≤ d
  vreach : ∀ p ∈ V, ∃ s ∈ seeds, ReachLe edges s p.1 p.2
  qreach : ∀ i ∈ Q, ∃ s ∈ seeds, ReachLe edges s i.code i.level
  closure : ∀ p ∈ V, p.2 + 1 ≤ d → ∀ b ∈ adjOf edges p.1,
      (∃ lb ≤ p.2 + 1, (b, lb) ∈ V) ∨ (∃ l ≤ p.2 + 1, QItem.mk b l ∈ Q)

theorem adjOf_mem_U (edges : List Edge) (U : List String)
    (hU : ∀ e ∈ edges, e.«from» ∈ U ∧ e.«to» ∈ U) (c b : String)
    (hb : b ∈ adjOf edges c) : b ∈ U := by
  rcases (adjOf_mem_iff edges c b).mp hb with ⟨e, he, h⟩
  rcases h with ⟨-, h2⟩ | ⟨-, h2⟩
  · rw [← h2]
    exact (hU e he).2
  · rw [← h2]
    exact (hU e he).1

theorem length_filter_mono {α : Type} (l : List α) (p q : α → Bool)
    (h : ∀ a, q a = true → p a = true) :
    (l.filter q).length ≤ (l.filter p).length := by
  induction l with
  | nil => exact Nat.le_refl 0
  | cons a l ih =>
    rw [List.filter_cons, List.filter_cons]
    cases hq : q a with
    | true =>
      rw [h a hq]
      simpa using ih
    | false =>
      cases hp : p a <;> simp <;> omega

theorem length_filter_lt {α : Type} (l : List α) (p q : α → Bool)
    (h : ∀ a, q a = true → p a = true) (c : α) (hc : c ∈ l)
    (hpc : p c = true) (hqc : q c = false) :
    (l.filter q).length < (l.filter p).length := by
  induction l with
  | nil => cases hc
  | cons a l ih =>
    rw [List.filter_cons, List.filter_cons]
    rcases List.mem_cons.mp hc with rfl | hc'
    · rw [hpc, hqc]
      simp only [if_true]
      have := length_filter_mono l p q h
      simp
      omega
    · cases hq : q a with
      | true =>
        rw [h a hq]
        simp only [if_true, List.length_cons]
        have := ih hc'
        omega
      | false =>
        cases hp : p a with
        | true =>
          simp only [if_true, List.length_cons]
          have := ih hc'
          simp
          omega
        | false =>
          rw [if_neg Bool.false_ne_true, if_neg Bool.false_ne_true]
          exact ih hc'

theorem contains_iff_mem (l : List String) (a : String) :
    l.contains a = true ↔ a ∈ l := by
  simp [List.contains]

theorem contains_eq_false_iff (l : List String) (a : String) :
    l.contains a = false ↔ a ∉ l := by
  rw [Bool.eq_false_iff]
  exact not_congr (contains_iff_mem l a)

theorem mem_bfs_newItems (edges : List Edge) (code : String) (level : Nat)
    (w : List String) (i : QItem) :
    (i ∈ (connectedEdges edges code).filterMap
      (fun edge =>
        if w.contains (nextCode edge code) then none
        else some (QItem.mk (nextCode edge code) (level + 1)))) ↔
    (i.code ∈ adjOf edges code ∧ w.contains i.code = false ∧
      i.level = level + 1) := by
  obtain ⟨icode, ilevel⟩ := i
  dsimp only
  rw [List.mem_filterMap]
  constructor
  · rintro ⟨e, he, hif⟩
    by_cases hw : w.contains (nextCode e code) = true
    · rw [if_pos hw] at hif
      cases hif
    · rw [if_neg hw] at hif
      have heq := Option.some.inj hif
      rw [QItem.mk.injEq] at heq
      rcases heq with ⟨h1, h2⟩
      refine ⟨?_, ?_, h2.symm⟩
      · rw [← h1]
        exact List.mem_map.mpr ⟨e, he, rfl⟩
      · rw [← h1]
        exact (Bool.eq_false_iff).mpr hw
  · rintro ⟨hadj, hw, hlv⟩
    rcases List.mem_map.mp hadj with ⟨e, he, hnext⟩
    refine ⟨e, he, ?_⟩
    rw [hnext, if_neg (by rw [hw]; exact Bool.false_ne_true), hlv]

theorem pairwise_const_level (l : List QItem) (k : Nat)
    (h : ∀ i ∈ l, i.level = k) :
    l.Pairwise (fun a b => a.level ≤ b.level ∧ b.level ≤ a.level + 1) := by
  induction l with
  | nil => exact List.Pairwise.nil
  | cons a l ih =>
    refine List.Pairwise.cons ?_ (ih fun i hi => h i (List.mem_cons_of_mem a hi))
    intro b hb
    have ha := h a (List.mem_cons_self a l)
    have hb' := h b (List.mem_cons_of_mem a hb)
    omega

theorem bfsLoopL_run (edges : List Edge) (d : Nat) (seeds : List String)
    (U : List String) (hU : ∀ e ∈ edges, e.«from» ∈ U ∧ e.«to» ∈ U) :
    ∀ (fuel : Nat) (V : List (String × Nat)) (Q : List QItem),
      bfsMeasure edges U V Q < fuel →
      BfsInv edges d seeds U V Q →
      (∀ p ∈ V, p ∈ bfsLoopL edges (d : Int) fuel V Q) ∧
      (∀ i ∈ Q, i.level ≤ d →
        ∃ l, l ≤ i.level ∧ (i.code, l) ∈ bfsLoopL edges (d : Int) fuel V Q) ∧
      (∀ p ∈ bfsLoopL edges (d : Int) fuel V Q, p.2 + 1 ≤ d →
        ∀ b ∈ adjOf edges p.1,
          ∃ lb, lb ≤ p.2 + 1 ∧ (b, lb) ∈ bfsLoopL edges (d : Int) fuel V Q) ∧
      (∀ p ∈ bfsLoopL edges (d : Int) fuel V Q,
        p.2 ≤ d ∧ ∃ s ∈ seeds, ReachLe edges s p.1 p.2) ∧
      ((bfsLoopL edges (d : Int) fuel V Q).map Prod.fst).Nodup := by
  intro fuel
  induction fuel with
  | zero =>
    intro V Q hm hinv
    exact absurd hm (by omega)
  | succ fuel ih =>
    intro V Q hm hinv
    cases Q with
    | nil =>
      refine ⟨fun p hp => hp, fun i hi => absurd hi (List.not_mem_nil i), ?_, ?_,
        hinv.nodup⟩
      · intro p hp hd1 b hb
        rcases hinv.closure p hp hd1 b hb with ⟨lb, hle, hmem⟩ | ⟨l, -, hq⟩
        · exact ⟨lb, hle, hmem⟩
        · exact absurd hq (List.not_mem_nil _)
      · intro p hp
        exact ⟨hinv.vd p hp, hinv.vreach p hp⟩
    | cons item rest =>
      have hpw := List.pairwise_cons.mp hinv.qmono
      simp only [bfsLoopL]
      by_cases hcond :
          ((V.map Prod.fst).contains item.code ||
            decide ((item.level : Int) > (d : Int))) = true
      · rw [if_pos hcond]
        have hm' : bfsMeasure edges U V rest < fuel := by
          unfold bfsMeasure at hm ⊢
          rw [List.length_cons] at hm
          omega
        have hinv' : BfsInv edges d seeds U V rest := by
          refine ⟨fun i hi => hinv.qU i (List.mem_cons_of_mem _ hi),
            hinv.nodup, hinv.qmono.of_cons,
            fun p hp i hi => hinv.vq p hp i (List.mem_cons_of_mem _ hi),
            hinv.vd, hinv.vreach,
            fun i hi => hinv.qreach i (List.mem_cons_of_mem _ hi), ?_⟩
          intro p hp hd1 b hb
          rcases hinv.closure p hp hd1 b hb with h | ⟨l, hle, hq⟩
          · exact Or.inl h
          · rcases List.mem_cons.mp hq with heq | hq'
            · have hbc : b = item.code := by rw [← heq]
              have hbl : l = item.level := by rw [← heq]
              have hor := hcond
              rw [Bool.or_eq_true] at hor
              rcases hor with hv | hl
              · have hv' : item.code ∈ V.map Prod.fst := (contains_iff_mem _ _).mp hv
                rcases List.mem_map.mp hv' with ⟨q, hqV, hqcode⟩
                refine Or.inl ⟨q.2, ?_, ?_⟩
                · have := hinv.vq q hqV item (List.mem_cons_self _ _)
                  omega
                · have hbq : (b, q.2) = q := by rw [hbc, ← hqcode]
                  rw [hbq]
                  exact hqV
              · have hgt : (d : Int) < (item.level : Int) := of_decide_eq_true hl
                have hgt' : d < item.level := by exact_mod_cast hgt
                have hpd := hinv.vd p hp
                omega
            · exact Or.inr ⟨l, hle, hq'⟩
        rcases ih V rest hm' hinv' with ⟨F1, F2, F3, F4, F5⟩
        refine ⟨F1, ?_, F3, F4, F5⟩
        intro i hi hid
        rcases List.mem_cons.mp hi with rfl | hi'
        · have hor := hcond
          rw [Bool.or_eq_true] at hor
          rcases hor with hv | hl
          · have hv' : i.code ∈ V.map Prod.fst := (contains_iff_mem _ _).mp hv
            rcases List.mem_map.mp hv' with ⟨q, hqV, hqcode⟩
            refine ⟨q.2, hinv.vq q hqV i (List.mem_cons_self _ _), ?_⟩
            have hbq : (i.code, q.2) = q := by rw [← hqcode]
            rw [hbq]
            exact F1 q hqV
          · have hgt : (d : Int) < (i.level : Int) := of_decide_eq_true hl
            have hgt' : d < i.level := by exact_mod_cast hgt
            omega
        · exact F2 i hi' hid
      · rw [if_neg hcond]
        have hnv : item.code ∉ V.map Prod.fst := by
          intro hmem
          refine hcond ?_
          rw [Bool.or_eq_true]
          left
          exact (contains_iff_mem _ _).mpr hmem
        have hnl : item.level ≤ d := by
          by_contra hgt
          push_neg at hgt
          have hgt' : (d : Int) < (item.level : Int) := by exact_mod_cast hgt
          refine hcond ?_
          rw [Bool.or_eq_true]
          right
          exact decide_eq_true hgt'
        have hitemU : item.code ∈ U := hinv.qU item (List.mem_cons_self _ _)
        set NI := (connectedEdges edges item.code).filterMap
          (fun edge =>
            if ((V ++ [(item.code, item.level)]).map Prod.fst).contains
                (nextCode edge item.code) then none
            else some (QItem.mk (nextCode edge item.code) (item.level + 1))) with hNI
        have hmemNI : ∀ i : QItem, i ∈ NI ↔
            (i.code ∈ adjOf edges item.code ∧
              ((V ++ [(item.code, item.level)]).map Prod.fst).contains i.code = false ∧
              i.level = item.level + 1) := fun i =>
          mem_bfs_newItems edges item.code item.level _ i
        have hNIlen : NI.length ≤ edges.length := by
          calc NI.length ≤ (connectedEdges edges item.code).length :=
                List.length_filterMap_le _ _
            _ ≤ edges.length := List.length_filter_le _ _
        have hu : unvisitedCount U (V ++ [(item.code, item.level)]) <
            unvisitedCount U V := by
          unfold unvisitedCount
          refine length_filter_lt U _ _ ?_ item.code hitemU ?_ ?_
          · intro a ha
            rw [Bool.not_eq_true'] at ha ⊢
            rw [contains_eq_false_iff] at ha ⊢
            intro hmem
            refine ha ?_
            rw [List.map_append]
            exact List.mem_append_left _ hmem
          · rw [Bool.not_eq_true', contains_eq_false_iff]
            exact hnv
          · have hc : ((V ++ [(item.code, item.level)]).map Prod.fst).contains
                item.code = true := by
              rw [contains_iff_mem, List.map_append]
              exact List.mem_append_right _ (by simp)
            rw [hc]
            rfl
        have hm' : bfsMeasure edges U (V ++ [(item.code, item.level)]) (rest ++ NI) <
            fuel := by
          have hm0 := hm
          unfold bfsMeasure at hm0 ⊢
          rw [List.length_cons] at hm0
          rw [List.length_append]
          have hK : (1 + edges.length) *
              (unvisitedCount U (V ++ [(item.code, item.level)]) + 1) ≤
              (1 + edges.length) * unvisitedCount U V :=
            Nat.mul_le_mul_left _ (by omega)
          rw [Nat.mul_add, Nat.mul_one] at hK
          generalize hA : (1 + edges.length) *
            unvisitedCount U (V ++ [(item.code, item.level)]) = A at hK ⊢
          generalize hB : (1 + edges.length) * unvisitedCount U V = B at hK hm0
          omega
        have hinv' : BfsInv edges d seeds U (V ++ [(item.code, item.level)])
            (rest ++ NI) := by
          refine ⟨?_, ?_, ?_, ?_, ?_, ?_, ?_, ?_⟩
          · intro i hi
            rcases List.mem_append.mp hi with hi | hi
            · exact hinv.qU i (List.mem_cons_of_mem _ hi)
            · exact adjOf_mem_U edges U hU item.code i.code ((hmemNI i).mp hi).1
          · rw [List.map_append]
            simp only [List.map_cons, List.map_nil]
            refine List.Nodup.append hinv.nodup (List.nodup_singleton _) ?_
            intro a ha hmem
            rw [List.mem_singleton] at hmem
            rw [hmem] at ha
            exact hnv ha
          · rw [List.pairwise_append]
            refine ⟨hpw.2,
              pairwise_const_level NI _ (fun i hi => ((hmemNI i).mp hi).2.2), ?_⟩
            intro x hx y hy
            have hrel := hpw.1 x hx
            have hy' := ((hmemNI y).mp hy).2.2
            omega
          · intro p hp i hi
            rcases List.mem_append.mp hp with hpV | hpS
            · rcases List.mem_append.mp hi with hiR | hiN
              · exact hinv.vq p hpV i (List.mem_cons_of_mem _ hiR)
              · have hy' := ((hmemNI i).mp hiN).2.2
                have := hinv.vq p hpV item (List.mem_cons_self _ _)
                omega
            · rw [List.mem_singleton] at hpS
              subst hpS
              rcases List.mem_append.mp hi with hiR | hiN
              · exact (hpw.1 i hiR).1
              · have hy' := ((hmemNI i).mp hiN).2.2
                simp only
                omega
          · intro p hp
            rcases List.mem_append.mp hp with hpV | hpS
            · exact hinv.vd p hpV
            · rw [List.mem_singleton] at hpS
              subst hpS
              exact hnl
          · intro p hp
            rcases List.mem_append.mp hp with hpV | hpS
            · exact hinv.vreach p hpV
            · rw [List.mem_singleton] at hpS
              subst hpS
              exact hinv.qreach item (List.mem_cons_self _ _)
          · intro i hi
            rcases List.mem_append.mp hi with hiR | hiN
            · exact hinv.qreach i (List.mem_cons_of_mem _ hiR)
            · rcases (hmemNI i).mp hiN with ⟨hadj, -, hlvl⟩
              rcases hinv.qreach item (List.mem_cons_self _ _) with ⟨s, hs, hr⟩
              refine ⟨s, hs, ?_⟩
              rw [hlvl]
              exact ReachLe.step hr hadj
          · intro p hp hd1 b hb
            rcases List.mem_append.mp hp with hpV | hpS
            · rcases hinv.closure p hpV hd1 b hb with ⟨lb, hle, hmem⟩ | ⟨l, hle, hq⟩
              · exact Or.inl ⟨lb, hle, List.mem_append_left _ hmem⟩
              · rcases List.mem_cons.mp hq with heq | hq'
                · have hbc : b = item.code := by rw [← heq]
                  have hbl : l = item.level := by rw [← heq]
                  refine Or.inl ⟨item.level, by omega, ?_⟩
                  rw [hbc]
                  exact List.mem_append_right _ (by simp)
                · exact Or.inr ⟨l, hle, List.mem_append_left _ hq'⟩
            · rw [List.mem_singleton] at hpS
              subst hpS
              by_cases hbv :
                  ((V ++ [(item.code, item.level)]).map Prod.fst).contains b = true
              · have hbv' : b ∈ (V ++ [(item.code, item.level)]).map Prod.fst :=
                  (contains_iff_mem _ _).mp hbv
                rw [List.map_append] at hbv'
                rcases List.mem_append.mp hbv' with hbV | hbS
                · rcases List.mem_map.mp hbV with ⟨q, hqV, hqcode⟩
                  refine Or.inl ⟨q.2, ?_, ?_⟩
                  · have := hinv.vq q hqV item (List.mem_cons_self _ _)
                    simp only
                    omega
                  · have hbq : (b, q.2) = q := by rw [← hqcode]
                    rw [hbq]
                    exact List.mem_append_left _ hqV
                · simp only [List.map_cons, List.map_nil, List.mem_singleton] at hbS
                  refine Or.inl ⟨item.level, by simp, ?_⟩
                  rw [hbS]
                  exact List.mem_append_right _ (by simp)
              · refine Or.inr ⟨item.level + 1, by simp, ?_⟩
                refine List.mem_append_right _ ?_
                exact (hmemNI ⟨b, item.level + 1⟩).mpr
                  ⟨hb, (Bool.eq_false_iff).mpr hbv, rfl⟩
        rcases ih (V ++ [(item.code, item.level)]) (rest ++ NI) hm' hinv' with
          ⟨F1, F2, F3, F4, F5⟩
        refine ⟨?_, ?_, F3, F4, F5⟩
        · intro p hp
          exact F1 p (List.mem_append_left _ hp)
        · intro i hi hid
          rcases List.mem_cons.mp hi with rfl | hi'
          · refine ⟨i.level, le_refl _, ?_⟩
            refine F1 (i.code, i.level) (List.mem_append_right _ (by simp))
          · exact F2 i (List.mem_append_left _ hi') hid

theorem bfsVisitedPairs_run (g : CourseGraph) (seeds : List String) (d : Nat) :
    (∀ s ∈ seeds, (s, 0) ∈ bfsVisitedPairs g seeds (d : Int)) ∧
    (∀ p ∈ bfsVisitedPairs g seeds (d : Int), p.2 + 1 ≤ d →
      ∀ b ∈ adjOf g.edges p.1,
        ∃ lb, lb ≤ p.2 + 1 ∧ (b, lb) ∈ bfsVisitedPairs g seeds (d : Int)) ∧
    (∀ p ∈ bfsVisitedPairs g seeds (d : Int),
      p.2 ≤ d ∧ ∃ s ∈ seeds, ReachLe g.edges s p.1 p.2) ∧
    ((bfsVisitedPairs g seeds (d : Int)).map Prod.fst).Nodup := by
  have hU : ∀ e ∈ g.edges, e.«from» ∈ bfsUniverse g.edges seeds ∧
      e.«to» ∈ bfsUniverse g.edges seeds := by
    intro e he
    unfold bfsUniverse
    constructor
    · exact List.mem_append_left _
        (List.mem_append_right _ (List.mem_map.mpr ⟨e, he, rfl⟩))
    · exact List.mem_append_right _ (List.mem_map.mpr ⟨e, he, rfl⟩)
  have hminit : bfsMeasure g.edges (bfsUniverse g.edges seeds) []
      (seeds.map (fun code => ⟨code, 0⟩)) < bfsFuel g.edges seeds := by
    unfold bfsMeasure bfsFuel unvisitedCount
    rw [List.length_map]
    have hfilter : ((bfsUniverse g.edges seeds).filter
        (fun c => !(([] : List (String × Nat)).map Prod.fst).contains c)) =
        bfsUniverse g.edges seeds := by
      refine List.filter_eq_self.mpr ?_
      intro a ha
      rfl
    rw [hfilter]
    omega
  have hinvinit : BfsInv g.edges d seeds (bfsUniverse g.edges seeds) []
      (seeds.map (fun code => ⟨code, 0⟩)) := by
    refine ⟨?_, List.nodup_nil, ?_, ?_, ?_, ?_, ?_, ?_⟩
    · intro i hi
      rcases List.mem_map.mp hi with ⟨s, hs, rfl⟩
      exact List.mem_append_left _ (List.mem_append_left _ hs)
    · refine pairwise_const_level _ 0 ?_
      intro i hi
      rcases List.mem_map.mp hi with ⟨s, hs, rfl⟩
      rfl
    · intro p hp
      cases hp
    · intro p hp
      cases hp
    · intro p hp
      cases hp
    · intro i hi
      rcases List.mem_map.mp hi with ⟨s, hs, rfl⟩
      exact ⟨s, hs, ReachLe.refl s 0⟩
    · intro p hp
      cases hp
  unfold bfsVisitedPairs
  rcases bfsLoopL_run g.edges d seeds _ hU (bfsFuel g.edges seeds) [] _ hminit hinvinit
    with ⟨F1, F2, F3, F4, F5⟩
  refine ⟨?_, F3, F4, F5⟩
  intro s hs
  rcases F2 ⟨s, 0⟩ (List.mem_map.mpr ⟨s, hs, rfl⟩) (Nat.zero_le d) with ⟨l, hl, hmem⟩
  have hl0 : l = 0 := Nat.le_zero.mp hl
  subst hl0
  exact hmem

/-- The visited set of `getSubgraph` is exactly the set of codes within
`depth` undirected hops of some seed. -/
theorem subgraphVisited_mem_iff (g : CourseGraph) (seeds : List String) (d : Nat)
    (c : String) :
    c ∈ subgraphVisited g seeds (d : Int) ↔ ∃ s ∈ seeds, ReachLe g.edges s c d := by
  rcases bfsVisitedPairs_run g seeds d with ⟨G1, G3, G4, G5⟩
  rw [subgraphVisited_eq_pairs]
  constructor
  · intro hc
    rcases List.mem_map.mp hc with ⟨p, hp, rfl⟩
    rcases G4 p hp with ⟨hpd, s, hs, hr⟩
    exact ⟨s, hs, hr.mono hpd⟩
  · rintro ⟨s, hs, hr⟩
    have key : ∀ (n : Nat) (a x : String), ReachLe g.edges a x n → a ∈ seeds →
        n ≤ d → ∃ l, l ≤ n ∧ (x, l) ∈ bfsVisitedPairs g seeds (d : Int) := by
      intro n
      induction n with
      | zero =>
        intro a x hreach ha _
        have hax := reachLe_zero hreach
        subst hax
        exact ⟨0, le_refl 0, G1 a ha⟩
      | succ n ihn =>
        intro a x hreach ha hn1
        cases hreach with
        | refl => exact ⟨0, Nat.zero_le _, G1 _ ha⟩
        | step hab hadj =>
          rcases ihn a _ hab ha (by omega) with ⟨lb, hlb, hmem⟩
          rcases G3 (_, lb) hmem (show lb + 1 ≤ d by omega) x hadj with ⟨lc, hlc, hmc⟩
          have hlc' : lc ≤ lb + 1 := hlc
          exact ⟨lc, by omega, hmc⟩
    rcases key d s c hr hs (le_refl d) with ⟨l, -, hmem⟩
    exact List.mem_map.mpr ⟨(c, l), hmem, rfl⟩

theorem subgraphVisited_nodup (g : CourseGraph) (seeds : List String) (d : Nat) :
    (subgraphVisited g seeds (d : Int)).Nodup := by
  rw [subgraphVisited_eq_pairs]
  exact (bfsVisitedPairs_run g seeds d).2.2.2

theorem nodup_fst_eq {l : List (String × Nat)} (hnd : (l.map Prod.fst).Nodup)
    {a : String} {b1 b2 : Nat} (h1 : (a, b1) ∈ l) (h2 : (a, b2) ∈ l) : b1 = b2 := by
  induction l with
  | nil => cases h1
  | cons p l ih =>
    rw [List.map_cons] at hnd
    have hnd' := List.nodup_cons.mp hnd
    rcases List.mem_cons.mp h1 with heq1 | h1' <;>
      rcases List.mem_cons.mp h2 with heq2 | h2'
    · rw [← heq1] at heq2
      exact ((Prod.mk.injEq _ _ _ _).mp heq2.symm).2
    · exfalso
      refine hnd'.1 ?_
      rw [← heq1]
      exact List.mem_map.mpr ⟨(a, b2), h2', rfl⟩
    · exfalso
      refine hnd'.1 ?_
      rw [← heq2]
      exact List.mem_map.mpr ⟨(a, b1), h1', rfl⟩
    · exact ih hnd'.2 h1' h2'

/-- Completeness of the BFS: everything within `n ≤ d` hops of a seed is
visited, at a level at most `n`. -/
theorem bfsVisitedPairs_complete (g : CourseGraph) (seeds : List String) (d : Nat) :
    ∀ (n : Nat) (a x : String), ReachLe g.edges a x n → a ∈ seeds → n ≤ d →
      ∃ l, l ≤ n ∧ (x, l) ∈ bfsVisitedPairs g seeds (d : Int) := by
  rcases bfsVisitedPairs_run g seeds d with ⟨G1, G3, G4, G5⟩
  intro n
  induction n with
  | zero =>
    intro a x hreach ha _
    have hax := reachLe_zero hreach
    subst hax
    exact ⟨0, le_refl 0, G1 a ha⟩
  | succ n ihn =>
    intro a x hreach ha hn1
    cases hreach with
    | refl => exact ⟨0, Nat.zero_le _, G1 _ ha⟩
    | step hab hadj =>
      rcases ihn a _ hab ha (by omega) with ⟨lb, hlb, hmem⟩
      rcases G3 (_, lb) hmem (show lb + 1 ≤ d by omega) x hadj with ⟨lc, hlc, hmc⟩
      have hlc' : lc ≤ lb + 1 := hlc
      exact ⟨lc, by omega, hmc⟩

/-- Each visited code is recorded exactly at its minimum hop distance
from the seed set. -/
theorem bfsVisitedPairs_minLevel (g : CourseGraph) (seeds : List String) (d : Nat) :
    ∀ p ∈ bfsVisitedPairs g seeds (d : Int),
      (∃ s ∈ seeds, ReachLe g.edges s p.1 p.2) ∧
      (∀ n, n ≤ d → (∃ s ∈ seeds, ReachLe g.edges s p.1 n) → p.2 ≤ n) := by
  rcases bfsVisitedPairs_run g seeds d with ⟨G1, G3, G4, G5⟩
  intro p hp
  refine ⟨(G4 p hp).2, ?_⟩
  rintro n hn ⟨s, hs, hr⟩
  rcases bfsVisitedPairs_complete g seeds d n s p.1 hr hs hn with ⟨l, hln, hmem⟩
  have hp' : (p.1, p.2) ∈ bfsVisitedPairs g seeds (d : Int) := by
    rw [Prod.mk.eta]
    exact hp
  have heq : p.2 = l := nodup_fst_eq G5 hp' hmem
  omega

/-! ### C3: getSubgraph is a depth-bounded undirected BFS -/

/-- The prerequisite chain `A → B → C → D` of the spec's BFS example. -/
def gChain : CourseGraph :=
  { nodes := [("A", { id := "A", label := "A", name := "Calc 1"
                      department := "M", description := "", url := "" }),
              ("B", { id := "B", label := "B", name := "Calc 2"
                      department := "M", description := "", url := "" }),
              ("C", { id := "C", label := "C", name := "Calc 3"
                      department := "M", description := "", url := "" }),
              ("D", { id := "D", label := "D", name := "Calc 4"
                      department := "M", description := "", url := "" })]
    edges := [{ «from» := "A", «to» := "B", type := "prerequisite", label := "prerequisite" },
              { «from» := "B", «to» := "C", type := "prerequisite", label := "prerequisite" },
              { «from» := "C", «to» := "D", type := "prerequisite", label := "prerequisite" }] }

/-- C3: for every graph, seed list and depth `d ≥ 1`, the visited set of
`getSubgraph` is duplicate-free and holds exactly the codes within `d`
undirected hops of some seed; each code is visited at most once, at its
minimum hop distance from the seed set (the instrumented visit level is
both a reachability witness and a lower bound over all hop counts up to
`d`); adjacency is symmetric and direction- and kind-blind, so edge
direction never gates expansion; the result's edge sequence is exactly
the stored edges whose both endpoints are visited,
i.e. whose both endpoints are within `d` hops of a seed; and on the
chain `A→B→C→D`, `getSubgraph(["B"], 1)` returns nodes `{A, B, C}` and
edges `{A→B, B→C}`, excluding `D`. -/
theorem c3_subgraph_bfs (g : CourseGraph) (seeds : List String) (d : Nat)
    (_hd : 1 ≤ d) :
    ((subgraphVisited g seeds (d : Int)).Nodup ∧
     (∀ c, c ∈ subgraphVisited g seeds (d : Int) ↔
        ∃ s ∈ seeds, ReachLe g.edges s c d) ∧
     subgraphVisited g seeds (d : Int) = (bfsVisitedPairs g seeds (d : Int)).map Prod.fst ∧
     (∀ p ∈ bfsVisitedPairs g seeds (d : Int),
        (∃ s ∈ seeds, ReachLe g.edges s p.1 p.2) ∧
        (∀ n, n ≤ d → (∃ s ∈ seeds, ReachLe g.edges s p.1 n) → p.2 ≤ n)) ∧
     (∀ a b, b ∈ adjOf g.edges a ↔ a ∈ adjOf g.edges b) ∧
     (getSubgraph g seeds (d : Int)).edges = g.edges.filter (fun e =>
        (subgraphVisited g seeds (d : Int)).contains e.«from» &&
        (subgraphVisited g seeds (d : Int)).contains e.«to») ∧
     (∀ e, e ∈ (getSubgraph g seeds (d : Int)).edges ↔
        (e ∈ g.edges ∧ (∃ s ∈ seeds, ReachLe g.edges s e.«from» d) ∧
         (∃ s ∈ seeds, ReachLe g.edges s e.«to» d))) ∧
     (getSubgraph g seeds (d : Int)).nodes =
        (subgraphVisited g seeds (d : Int)).filterMap
          (fun code => mapGet g.nodes code)) ∧
    ((getSubgraph gChain ["B"] 1).nodes.map (fun n => n.id) = ["B", "A", "C"] ∧
     (getSubgraph gChain ["B"] 1).edges.map (fun e => (e.«from», e.«to»)) =
        [("A", "B"), ("B", "C")] ∧
     "D" ∉ (getSubgraph gChain ["B"] 1).nodes.map (fun n => n.id)) := by
  refine ⟨⟨subgraphVisited_nodup g seeds d,
    fun c => subgraphVisited_mem_iff g seeds d c,
    subgraphVisited_eq_pairs g seeds (d : Int),
    bfsVisitedPairs_minLevel g seeds d,
    fun a b => adjOf_symm g.edges a b, rfl, ?_, rfl⟩,
    by decide, by decide, by decide⟩
  intro e
  show e ∈ g.edges.filter _ ↔ _
  rw [List.mem_filter, Bool.and_eq_true, contains_iff_mem, contains_iff_mem,
    subgraphVisited_mem_iff, subgraphVisited_mem_iff]

/-- C3 witness: the theorem applied to the chain graph at depth 1. -/
theorem c3_subgraph_bfs_witness :
    (getSubgraph gChain ["B"] 1).edges.map (fun e => (e.«from», e.«to»)) =
      [("A", "B"), ("B", "C")] :=
  (c3_subgraph_bfs gChain ["B"] 1 (by decide)).2.2.1

/-! ### C4: depth 0 -/

/-- C4, amended: at depth 0 the visited set is exactly the seed codes
(each visited once); the node result is the lookup of the visited seeds
(seeds without a node are dropped); and the edge result is NOT always
empty — it is the stored edges whose BOTH endpoints are seed codes, so
an edge joining two seeds (or a self-loop on a seed) is included. -/
theorem c4_amended (g : CourseGraph) (seeds : List String) :
    (∀ c, c ∈ subgraphVisited g seeds 0 ↔ c ∈ seeds) ∧
    (subgraphVisited g seeds 0).Nodup ∧
    (∀ n, n ∈ (getSubgraph g seeds 0).nodes ↔
      ∃ c ∈ seeds, mapGet g.nodes c = some n) ∧
    (getSubgraph g seeds 0).edges =
      g.edges.filter (fun e => seeds.contains e.«from» && seeds.contains e.«to») := by
  have hchar : ∀ c, c ∈ subgraphVisited g seeds 0 ↔ c ∈ seeds := by
    intro c
    have h := subgraphVisited_mem_iff g seeds 0 c
    simp only [Nat.cast_zero] at h
    rw [h]
    constructor
    · rintro ⟨s, hs, hr⟩
      rw [← reachLe_zero hr]
      exact hs
    · intro hc
      exact ⟨c, hc, ReachLe.refl c 0⟩
  have hcv : ∀ x, (subgraphVisited g seeds 0).contains x = seeds.contains x := by
    intro x
    by_cases hx : x ∈ seeds
    · rw [(contains_iff_mem _ _).mpr ((hchar x).mpr hx), (contains_iff_mem _ _).mpr hx]
    · rw [(contains_eq_false_iff _ _).mpr (fun hmem => hx ((hchar x).mp hmem)),
        (contains_eq_false_iff _ _).mpr hx]
  refine ⟨hchar, ?_, ?_, ?_⟩
  · have h := subgraphVisited_nodup g seeds 0
    simpa using h
  · intro n
    show n ∈ (subgraphVisited g seeds 0).filterMap (fun code => mapGet g.nodes code) ↔ _
    rw [List.mem_filterMap]
    constructor
    · rintro ⟨c, hc, hget⟩
      exact ⟨c, (hchar c).mp hc, hget⟩
    · rintro ⟨c, hc, hget⟩
      exact ⟨c, (hchar c).mpr hc, hget⟩
  · show g.edges.filter _ = _
    refine List.filter_congr ?_
    intro e he
    rw [hcv, hcv]

/-- C4, counterexample: at depth 0 the edge sequence is not always
empty — on a graph with the prerequisite edge `A → B` and both `A` and
`B` given as seeds, the edge is returned; the single-seed case of the
spec's example does hold. -/
theorem c4_counterexample :
    (getSubgraph gC2a ["A", "B"] 0).edges = [edgeAB] ∧
    (getSubgraph gC2a ["A", "B"] 0).edges ≠ [] ∧
    (getSubgraph gC2a ["A"] 0) = { nodes := [nodeA], edges := [] } := by
  refine ⟨by decide, by decide, by decide⟩
